import Mathlib

/-!
Verification of the no-OS core utility containers: the circular (ring)
buffer of `src/util/circular_buffer.c` and the doubly linked list of
`src/util/list.c`, shallowly embedded in Lean 4.

Machine integers are modelled as `Nat`/`Int` with explicit `% 2 ^ 32`
wherever the C code performs 32-bit arithmetic that can overflow.
Pointers into the ring buffer backing region are modelled as byte
offsets; the backing region itself is a `List Nat` of bytes.  The C
functions return `SUCCESS`/`FAILURE` (`int32_t`); this is modelled as a
`Bool` (`true` = SUCCESS).  Code paths that dereference a null or
dangling pointer (undefined behaviour in C) are modelled as `none` of an
`Option`-valued result, distinct from an ordinary `FAILURE` return.
-/

/-- Ring buffer descriptor, from `struct circular_buffer`.
`buff` is the backing byte region; `read_off`/`write_off` are the byte
offsets of `read_ptr`/`write_ptr` from `buff`. -/
structure circular_buffer where
  size : Nat
  nb_elem : Nat
  elem_size : Nat
  buff : List Nat
  read_off : Nat
  write_off : Nat
  full : Bool
deriving DecidableEq

/-- `circular_buffer_init`: argument checks, the (32-bit, hence possibly
wrapped) size computation with its incomplete overflow test, and the
zeroed backing region.  `calloc(nb_elements, element_size)` computes its
size in `size_t` (64-bit), so the allocated region has the mathematical
product as length, while `ldesc->size` holds the 32-bit product.
Allocation is assumed to succeed; `none` models the `FAILURE` returns of
the argument and overflow checks. -/
def circular_buffer_init (nb_elements element_size : Nat) :
    Option circular_buffer :=
  if nb_elements = 0 ∨ element_size = 0 then none
  else
    let size := (nb_elements * element_size) % 2 ^ 32
    if size < nb_elements ∨ size < element_size then none
    else some { size := size, nb_elem := nb_elements,
                elem_size := element_size,
                buff := List.replicate (nb_elements * element_size) 0,
                read_off := 0, write_off := 0, full := false }

/-- `elements_to_size`: 32-bit multiplication of an element count by
`elem_size`. -/
def elements_to_size (d : circular_buffer) (elems : Nat) : Nat :=
  (elems * d.elem_size) % 2 ^ 32

/-- `get_unread_size`, translated branch by branch (`write_ptr <
read_ptr` is offset comparison). -/
def get_unread_size (d : circular_buffer) : Nat :=
  if d.full then d.size
  else if d.write_off < d.read_off then
    d.size - d.read_off + d.write_off
  else
    d.write_off - d.read_off

/-- `memcpy(buff + off, src, src.length)` on the backing region. -/
def memcpy_at (buff : List Nat) (off : Nat) (src : List Nat) : List Nat :=
  buff.take off ++ src ++ buff.drop (off + src.length)

/-- `circular_buffer_write`.  The result is `(status, new state)`; the
two `FAILURE` paths return before any mutation, so they carry the state
unchanged.  `data` is the caller's source buffer as a byte list; the
split copy of the wrap-around case is the pair of `memcpy` calls of the
source. -/
def circular_buffer_write (d : circular_buffer) (data : List Nat)
    (nb_elements : Nat) : Bool × circular_buffer :=
  if d.full then (false, d)
  else
    let to_write_size := elements_to_size d nb_elements
    if to_write_size > d.size - get_unread_size d then (false, d)
    else
      let size_to_end := d.size - d.write_off
      if to_write_size > size_to_end then
        let b1 := memcpy_at d.buff d.write_off (data.take size_to_end)
        let rest := to_write_size - size_to_end
        let b2 := memcpy_at b1 0 ((data.drop size_to_end).take rest)
        let d' := { d with buff := b2, write_off := rest }
        (true, if d'.write_off = d'.read_off then { d' with full := true }
               else d')
      else
        let b1 := memcpy_at d.buff d.write_off (data.take to_write_size)
        let d' := { d with buff := b1,
                           write_off := d.write_off + to_write_size }
        (true, if d'.write_off = d'.read_off then { d' with full := true }
               else d')

/-- `circular_buffer_read`.  The result is `(status, bytes delivered to
the caller's buffer, new state)`.  The unconditional
`if (full) full = false` at the end is written as `full := false`. -/
def circular_buffer_read (d : circular_buffer) (nb_elements : Nat) :
    Bool × List Nat × circular_buffer :=
  let to_read_size := elements_to_size d nb_elements
  if to_read_size > get_unread_size d then (false, [], d)
  else
    let size_to_end := d.size - d.read_off
    if to_read_size > size_to_end then
      let out := (d.buff.drop d.read_off).take size_to_end ++
                 d.buff.take (to_read_size - size_to_end)
      (true, out, { d with read_off := to_read_size - size_to_end,
                           full := false })
    else
      (true, (d.buff.drop d.read_off).take to_read_size,
       { d with read_off := d.read_off + to_read_size, full := false })

/-- Well-formedness of a ring buffer state: both cursors stay within
`[0, size]` (the code lets a cursor rest exactly at `size`, one past the
last byte of the region), the declared size does not exceed the backing
region, and a full buffer has coinciding cursors. -/
def cb_inv (d : circular_buffer) : Prop :=
  d.read_off ≤ d.size ∧ d.write_off ≤ d.size ∧ d.size ≤ d.buff.length ∧
  (d.full = true → d.read_off = d.write_off)

/-- The state reached from `circular_buffer_init 4 1` (element count 4,
element size 1). -/
def cb2_init : circular_buffer :=
  { size := 4, nb_elem := 4, elem_size := 1, buff := [0, 0, 0, 0],
    read_off := 0, write_off := 0, full := false }

/-- `cb2_init` after an exact-fill write of four bytes. -/
def cb2_filled : circular_buffer :=
  (circular_buffer_write cb2_init [1, 2, 3, 4] 4).2

/-!
## Doubly linked list (`src/util/list.c`)

The heap of list nodes is modelled explicitly: node addresses are `Nat`
(the allocator hands out increasing addresses starting at 1 and never
reuses one; the C code never compares a freed pointer with a live one,
so address identity is faithful to pointer identity).  A `void *`
payload is a `Nat`, with `0` for `NULL`.  Null node pointers are `none`.
An iterator is its current position (`Option Nat`) together with the
descriptor of the list it is bound to, which the C code reaches through
`it->list`; functions that the C mutates through the iterator take and
return the descriptor explicitly.  `Option`-valued results use `none`
for undefined behaviour (dereferencing a null or dangling pointer),
which is distinct from an ordinary `FAILURE` return.
-/

/-- `struct list_elem`. -/
structure list_elem where
  data : Nat
  prev : Option Nat
  next : Option Nat
deriving DecidableEq

/-- The allocated nodes, as an association list from address to node. -/
abbrev Heap := List (Nat × list_elem)

/-- Read the node at address `a` (`none`: dangling pointer). -/
def hget (h : Heap) (a : Nat) : Option list_elem :=
  match h with
  | [] => none
  | (b, e) :: t => if a = b then some e else hget t a

/-- Write through the pointer `a`: replace the node at `a` by `f` of it. -/
def hmodify (h : Heap) (a : Nat) (f : list_elem → list_elem) : Heap :=
  match h with
  | [] => []
  | (b, e) :: t => if a = b then (b, f e) :: t else (b, e) :: hmodify t a f

/-- `free` the node at address `a`. -/
def hdel (h : Heap) (a : Nat) : Heap :=
  match h with
  | [] => []
  | (b, e) :: t => if a = b then t else (b, e) :: hdel t a

/-- `struct list_desc`.  `l_it_elem` is the position of the embedded
internal iterator `l_it` (its `list` field always points back to this
descriptor).  The embedded adapter holds only function bindings and the
same back-pointer, so it is kept outside the descriptor (see
`set_adapter`). -/
structure list_desc where
  heap : Heap
  fresh : Nat
  first : Option Nat
  last : Option Nat
  nb_elements : Nat
  comparator : Nat → Nat → Int
  nb_iterators : Nat
  l_it_elem : Option Nat

/-- Truncation of an `Int` to a signed 32-bit value. -/
def toInt32 (x : Int) : Int := (x + 2 ^ 31) % 2 ^ 32 - 2 ^ 31

/-- `default_comparator`: `(int32_t)(data1 - data2)`, the pointer
difference truncated to 32 bits. -/
def default_comparator (data1 data2 : Nat) : Int :=
  toInt32 ((data1 : Int) - (data2 : Int))

/-- `create_element`: `calloc` a fresh node (allocation is assumed to
succeed) and fill its three fields. -/
def create_element (d : list_desc) (data : Nat) (prev next : Option Nat) :
    Nat × list_desc :=
  (d.fresh,
   { d with heap := (d.fresh, ⟨data, prev, next⟩) :: d.heap,
            fresh := d.fresh + 1 })

/-- `update_links`, translated condition by condition
(`prev->next = elem ? elem : next`, etc.). -/
def update_links (h : Heap) (prev elem next : Option Nat) : Heap :=
  let h1 := match prev with
    | some p =>
        hmodify h p (fun n =>
          { n with next := match elem with | some _ => elem | none => next })
    | none => h
  let h2 := match elem with
    | some a => hmodify h1 a (fun n => { n with prev := prev, next := next })
    | none => h1
  match next with
  | some q =>
      hmodify h2 q (fun n =>
        { n with prev := match elem with | some _ => elem | none => prev })
  | none => h2

/-- `update_desc`, translated branch by branch (pointer comparisons are
`Option Nat` equalities). -/
def update_desc (d : list_desc) (new_first new_last : Option Nat) :
    list_desc :=
  if new_first = d.first then
    let d1 := { d with last := new_last }
    if new_first = none ∨ new_last = none then { d1 with first := new_last }
    else d1
  else
    let d1 := { d with first := new_first }
    if new_last = none ∨ new_first = none then { d1 with last := new_first }
    else d1

/-- `list_add_first`. -/
def list_add_first (d : list_desc) (data : Nat) : Bool × list_desc :=
  let prev : Option Nat := none
  let next := d.first
  let p := create_element d data prev next
  let d2 := { p.2 with heap := update_links p.2.heap prev (some p.1) next }
  let d3 := update_desc d2 (some p.1) d2.last
  (true, { d3 with nb_elements := d3.nb_elements + 1 })

/-- `list_add_last`. -/
def list_add_last (d : list_desc) (data : Nat) : Bool × list_desc :=
  let prev := d.last
  let next : Option Nat := none
  let p := create_element d data prev next
  let d2 := { p.2 with heap := update_links p.2.heap prev (some p.1) next }
  let d3 := update_desc d2 d2.first (some p.1)
  (true, { d3 with nb_elements := d3.nb_elements + 1 })

/-- `list_get_first`.  Result `(status, returned data pointer, list)`;
the `FAILURE` path returns the `NULL` data pointer `0`. -/
def list_get_first (d : list_desc) : Option (Bool × Nat × list_desc) :=
  if d.nb_elements = 0 then some (false, 0, d)
  else match d.first with
  | none => none
  | some a => match hget d.heap a with
    | none => none
    | some e =>
      let d1 := { d with heap := update_links d.heap e.prev none e.next }
      let d2 := update_desc d1 e.next d1.last
      let d3 := { d2 with nb_elements := d2.nb_elements - 1 }
      some (true, e.data, { d3 with heap := hdel d3.heap a })

/-- `list_get_last`. -/
def list_get_last (d : list_desc) : Option (Bool × Nat × list_desc) :=
  if d.nb_elements = 0 then some (false, 0, d)
  else match d.last with
  | none => none
  | some a => match hget d.heap a with
    | none => none
    | some e =>
      let d1 := { d with heap := update_links d.heap e.prev none e.next }
      let d2 := update_desc d1 d1.first e.prev
      let d3 := { d2 with nb_elements := d2.nb_elements - 1 }
      some (true, e.data, { d3 with heap := hdel d3.heap a })

/-- `list_edit_first`: the code dereferences `list->first` with no
empty-list check (`list->first->data = new_data`), so on an empty list
it is a null dereference (`none`), not a `FAILURE` return. -/
def list_edit_first (d : list_desc) (new_data : Nat) :
    Option (Bool × list_desc) :=
  match d.first with
  | none => none
  | some a =>
    if (hget d.heap a).isSome then
      some (true,
        { d with heap := hmodify d.heap a (fun e => { e with data := new_data }) })
    else none

/-- `list_edit_last`: same null dereference on an empty list. -/
def list_edit_last (d : list_desc) (new_data : Nat) :
    Option (Bool × list_desc) :=
  match d.last with
  | none => none
  | some a =>
    if (hget d.heap a).isSome then
      some (true,
        { d with heap := hmodify d.heap a (fun e => { e with data := new_data }) })
    else none

/-- `list_read_first`. -/
def list_read_first (d : list_desc) : Option (Bool × Nat) :=
  match d.first with
  | none => some (false, 0)
  | some a => match hget d.heap a with
    | none => none
    | some e => some (true, e.data)

/-- `list_read_last`. -/
def list_read_last (d : list_desc) : Option (Bool × Nat) :=
  match d.last with
  | none => some (false, 0)
  | some a => match hget d.heap a with
    | none => none
    | some e => some (true, e.data)

/-- `iterator_init` on a list: bumps `nb_iterators` and positions the
cursor at the head (`start = true`) or the tail. -/
def iterator_init (d : list_desc) (start : Bool) : list_desc × Option Nat :=
  ({ d with nb_iterators := d.nb_iterators + 1 },
   if start then d.first else d.last)

/-- `iterator_remove`: drops the iterator, decrementing `nb_iterators`
(32-bit decrement; it wraps only if no iterator is live, which cannot
happen for an iterator obtained from `iterator_init`). -/
def iterator_remove (d : list_desc) : list_desc :=
  { d with nb_iterators := d.nb_iterators - 1 }

/-- `abs` of C on `int32_t` values: `abs(INT32_MIN)` overflows and, in
two's complement, yields `INT32_MIN` itself. -/
def abs32 (i : Int) : Int :=
  if i = -(2 ^ 31) then -(2 ^ 31) else (i.natAbs : Int)

/-- The `while (idx > 0 && elem)` walk of `iterator_move`: step `k`
times through `next` (`fwd = true`) or `prev`, stopping early at a null
pointer.  `some none` is the loop leaving `elem == NULL`; `none` is a
dangling-pointer dereference. -/
def walk_n (h : Heap) (fwd : Bool) : Nat → Option Nat → Option (Option Nat)
  | 0, cur => some cur
  | _ + 1, none => some none
  | k + 1, some a =>
    match hget h a with
    | none => none
    | some e => walk_n h fwd k (if fwd then e.next else e.prev)

/-- `iterator_move`: the position is updated only when the walk ends on
a node; otherwise `FAILURE` with the position unchanged. -/
def iterator_move (d : list_desc) (pos : Option Nat) (idx : Int) :
    Option (Bool × Option Nat) :=
  let dir : Int := if idx < 0 then -1 else 1
  let steps := (abs32 idx).toNat
  match walk_n d.heap (decide (0 < dir)) steps pos with
  | none => none
  | some none => some (false, pos)
  | some (some a) => some (true, some a)

/-- `iterator_read`. -/
def iterator_read (d : list_desc) (pos : Option Nat) : Option (Bool × Nat) :=
  match pos with
  | none => some (false, 0)
  | some a =>
    match hget d.heap a with
    | none => none
    | some e => some (true, e.data)

/-- `iterator_edit`: the code only checks `it` for null, then writes
`it->elem->data`; with no current position that is a null dereference
(`none`), not a `FAILURE` return. -/
def iterator_edit (d : list_desc) (pos : Option Nat) (new_data : Nat) :
    Option (Bool × list_desc) :=
  match pos with
  | none => none
  | some a =>
    if (hget d.heap a).isSome then
      some (true,
        { d with heap := hmodify d.heap a (fun e => { e with data := new_data }) })
    else none

/-- `iterator_insert`.  The degenerate end cases are the two leading
pointer-equality tests; the general case allocates between the current
node and its neighbour and rewires with `update_links`. -/
def iterator_insert (d : list_desc) (pos : Option Nat) (data : Nat)
    (after : Bool) : Option (Bool × list_desc) :=
  if after = true ∧ pos = d.last then some (list_add_last d data)
  else if after = false ∧ pos = d.first then some (list_add_first d data)
  else match pos with
  | none => none
  | some a =>
    match hget d.heap a with
    | none => none
    | some e =>
      let pn : Option Nat × Option Nat :=
        if after then (some a, e.next) else (e.prev, some a)
      let p := create_element d data pn.1 pn.2
      let d2 := { p.2 with heap := update_links p.2.heap pn.1 (some p.1) pn.2 }
      some (true, { d2 with nb_elements := d2.nb_elements + 1 })

/-- `iterator_get`, translated statement by statement.  Note the order
of operations: `update_desc` runs first, so the later test
`it->elem == it->list->last` compares the removed node against the
already-updated tail pointer. -/
def iterator_get (d : list_desc) (pos : Option Nat) :
    Option (Bool × Nat × list_desc × Option Nat) :=
  match pos with
  | none => some (false, 0, d, pos)
  | some a =>
    match hget d.heap a with
    | none => none
    | some e =>
      let d1 := { d with heap := update_links d.heap e.prev none e.next }
      let d2 := if some a = d1.first then update_desc d1 e.next d1.last
                else if some a = d1.last then update_desc d1 d1.first e.prev
                else d1
      let d3 := { d2 with nb_elements := d2.nb_elements - 1 }
      let nxt := if some a = d3.last then e.prev else e.next
      some (true, e.data, { d3 with heap := hdel d3.heap a }, nxt)

/-- The `while (elem)` search loop of `list_add_find`: walk the chain
from `cur` until the comparator reports `data` strictly less than the
visited payload.  `some none` is falling off the tail; the outer `none`
is fuel exhaustion (the C loop would not terminate on a cyclic chain)
or a dangling pointer. -/
def find_ge (d : list_desc) (data : Nat) : Nat → Option Nat →
    Option (Option Nat)
  | 0, _ => none
  | _ + 1, none => some none
  | fuel + 1, some a =>
    match hget d.heap a with
    | none => none
    | some e =>
      if d.comparator data e.data < 0 then some (some a)
      else find_ge d data fuel e.next

/-- `list_add_find`: position the internal iterator `l_it` on the first
element strictly greater than `data` and insert before it, or on the
tail and insert after it.  The chain of a well-formed list has
`nb_elements` nodes, so `nb_elements + 1` loop iterations always
suffice. -/
def list_add_find (d : list_desc) (data : Nat) : Option (Bool × list_desc) :=
  match find_ge d data (d.nb_elements + 1) d.first with
  | none => none
  | some none =>
    let d1 := { d with l_it_elem := d.last }
    iterator_insert d1 d1.l_it_elem data true
  | some (some a) =>
    let d1 := { d with l_it_elem := some a }
    iterator_insert d1 d1.l_it_elem data false

/-- The element-removal loop of `list_remove`:
`data = list_get_first(...); while (data) data = list_get_first(...);`.
The loop keeps calling `list_get_first` until it returns a null data
pointer — either because the list is empty or because a stored payload
is itself `NULL`.  Returns the descriptor state at the moment
`free(list_desc)` runs. -/
def drain : Nat → list_desc → Option list_desc
  | 0, _ => none
  | fuel + 1, d =>
    match list_get_first d with
    | none => none
    | some (_, data, d') => if data = 0 then some d' else drain fuel d'

/-- `list_remove`: refuses while iterators are live, otherwise runs the
drain loop and frees the descriptor.  The returned descriptor state is
the one observed at `free` time (a well-formed list has at most
`nb_elements` removals before `list_get_first` returns `NULL`). -/
def list_remove (d : list_desc) : Option (Bool × list_desc) :=
  if d.nb_iterators ≠ 0 then some (false, d)
  else (drain (d.nb_elements + 1) d).map (fun d' => (true, d'))

/-- `enum adapter_type`. -/
inductive adapter_type where
  | LIST_DEFAULT | LIST_STACK | LIST_QUEUE | LIST_PRIORITY_LIST
deriving DecidableEq

/-- `struct list_adapter` (the five operation bindings; its `list`
back-pointer is the descriptor every operation here takes
explicitly). -/
structure list_adapter where
  push : list_desc → Nat → Option (Bool × list_desc)
  pop : list_desc → Option (Bool × Nat × list_desc)
  top_next : list_desc → Option (Bool × Nat)
  back : list_desc → Option (Bool × Nat)
  swap : list_desc → Nat → Option (Bool × list_desc)

/-- `set_adapter`: the fixed dispatch table per discipline
(`list_add_last`/`list_add_first` cannot fault, so their bindings wrap
the total functions). -/
def set_adapter (type : adapter_type) : list_adapter :=
  match type with
  | .LIST_PRIORITY_LIST =>
    { push := list_add_find, pop := list_get_first,
      top_next := list_read_first, back := list_read_last,
      swap := list_edit_first }
  | .LIST_QUEUE =>
    { push := fun d x => some (list_add_last d x), pop := list_get_first,
      top_next := list_read_first, back := list_read_last,
      swap := list_edit_first }
  | .LIST_DEFAULT | .LIST_STACK =>
    { push := fun d x => some (list_add_last d x), pop := list_get_last,
      top_next := list_read_last, back := list_read_first,
      swap := list_edit_last }

/-- `list_init`: a fresh empty list (a null `comparator` argument is
replaced by `default_comparator`) together with its configured
adapter. -/
def list_init (comparator : Option (Nat → Nat → Int))
    (type : adapter_type) : list_desc × list_adapter :=
  ({ heap := [], fresh := 1, first := none, last := none, nb_elements := 0,
     comparator := match comparator with
                   | some f => f
                   | none => default_comparator,
     nb_iterators := 0, l_it_elem := none },
   set_adapter type)

/-!
## Specification-level helpers

Abstractions used to state theorems about the list: the chain
representation predicate, payload extraction, and the functional sorted
insert that mirrors the walk of `list_add_find`.
-/

/-- `isChainB h prv cur addrs`: starting at pointer `cur`, whose
predecessor pointer must equal `prv`, following `next` visits exactly
the addresses `addrs` and ends at a null pointer, with every `prev`
field pointing back at the predecessor. -/
def isChainB (h : Heap) : Option Nat → Option Nat → List Nat → Bool
  | _, cur, [] => cur = none
  | prv, cur, a :: as =>
    cur = some a &&
    match hget h a with
    | none => false
    | some e => e.prev = prv && isChainB h (some a) e.next as

/-- The payload stored at address `a` (`0` if dangling). -/
def dataOf (h : Heap) (a : Nat) : Nat :=
  match hget h a with
  | some e => e.data
  | none => 0

/-- The payload sequence of an address sequence. -/
def payloads (h : Heap) (addrs : List Nat) : List Nat := addrs.map (dataOf h)

/-- Well-formedness of a list descriptor: `addrs` is the address
sequence of its chain.  `first`/`last` frame the chain, `nb_elements`
counts it, addresses are distinct and below the allocation cursor, and
the heap contains exactly the chain's nodes. -/
def wf (d : list_desc) (addrs : List Nat) : Prop :=
  isChainB d.heap none d.first addrs = true ∧
  d.last = addrs.getLast? ∧
  d.nb_elements = addrs.length ∧
  addrs.Nodup ∧
  (∀ a ∈ addrs, a < d.fresh) ∧
  (d.heap.map Prod.fst).Perm addrs

instance (d : list_desc) (addrs : List Nat) : Decidable (wf d addrs) := by
  unfold wf; infer_instance

instance (d : circular_buffer) : Decidable (cb_inv d) := by
  unfold cb_inv; infer_instance

/-- Sorted insert as a pure function: place `x` before the first
element strictly greater than it (the comparator-walk of
`list_add_find`, phrased on payload sequences). -/
def sortedIns (cmp : Nat → Nat → Int) (x : Nat) : List Nat → List Nat
  | [] => [x]
  | y :: ys => if cmp x y < 0 then x :: y :: ys else y :: sortedIns cmp x ys

/-- Index at which `sortedIns` places its element. -/
def insPos (cmp : Nat → Nat → Int) (x : Nat) : List Nat → Nat
  | [] => 0
  | y :: ys => if cmp x y < 0 then 0 else insPos cmp x ys + 1

/-- Push a sequence of keys through an adapter, one after the other. -/
def pushAll (ad : list_adapter) : list_desc → List Nat → Option list_desc
  | d, [] => some d
  | d, k :: ks =>
    match ad.push d k with
    | some (true, d') => pushAll ad d' ks
    | _ => none

/-- Pop `n` elements through an adapter, collecting the payloads in
order. -/
def popAll (ad : list_adapter) : list_desc → Nat →
    Option (List Nat × list_desc)
  | d, 0 => some ([], d)
  | d, n + 1 =>
    match ad.pop d with
    | some (true, x, d') => (popAll ad d' n).map (fun r => (x :: r.1, r.2))
    | _ => none

/-!
## Concrete states used by the evaluation theorems
-/

/-- A full one-byte-element buffer of capacity 4. -/
def cb_full_state : circular_buffer :=
  { size := 4, nb_elem := 4, elem_size := 1, buff := [5, 6, 7, 8],
    read_off := 2, write_off := 2, full := true }

/-- An empty ring buffer whose cursors rest mid-region, so that a
3-byte write wraps around the end. -/
def cb_wrap_state : circular_buffer :=
  { size := 4, nb_elem := 4, elem_size := 1, buff := [0, 0, 0, 0],
    read_off := 2, write_off := 2, full := false }

/-- The empty list with the default comparator and default adapter. -/
def d_empty : list_desc := (list_init none .LIST_DEFAULT).1

/-- The two-element list `[5, 7]` (node addresses 1 and 2). -/
def d_ab : list_desc := (list_add_last (list_add_last d_empty 5).2 7).2

/-- The one-element list `[7]` (node address 1). -/
def d_one : list_desc := (list_add_last d_empty 7).2

/-- A list whose first payload is the `NULL` pointer `0` and whose
second payload is `5`. -/
def d_nullpay : list_desc := (list_add_last (list_add_last d_empty 0).2 5).2

/-- C3: `circular_buffer_init` rejects zero arguments and, on success from
`(4, 1)`, yields a zeroed backing region with both cursors at offset 0 and
`full = false`; but the claimed overflow check is incomplete: for
`(65537, 65537)` the 32-bit product wraps to `131073`, which passes the
`size < nb_elements || size < element_size` test, so construction succeeds
even though `65537 * 65537` overflows the 32-bit size representation. -/
theorem c3_init_overflow_bug :
    circular_buffer_init 0 5 = none ∧
    circular_buffer_init 5 0 = none ∧
    circular_buffer_init 4 1 = some cb2_init ∧
    (circular_buffer_init 65537 65537).isSome = true ∧
    (circular_buffer_init 65537 65537).map circular_buffer.size =
      some 131073 ∧
    2 ^ 32 < 65537 * 65537 := by
  exact ⟨rfl, rfl, rfl, rfl, rfl, by norm_num⟩

/-- C8: for every ring buffer state, a write whose requested byte count
(`n_elements * element_size`, as 32-bit arithmetic) exceeds the free space
`capacity_bytes - occupied_bytes`, or that hits a full buffer, returns
`FAILURE` with the read cursor, write cursor, full flag and backing bytes
all unchanged. -/
theorem c8_write_overflow_fails (d : circular_buffer) (data : List Nat)
    (n : Nat)
    (h : d.full = true ∨ d.size - get_unread_size d < elements_to_size d n) :
    circular_buffer_write d data n = (false, d) := by
  unfold circular_buffer_write
  rcases h with h | h
  · simp [h]
  · rcases hf : d.full with _ | _
    · simp [hf, h]
    · simp [hf]

/-- Witness for C8 at a concrete full buffer. -/
theorem c8_witness :
    circular_buffer_write cb_full_state [9] 1 = (false, cb_full_state) :=
  c8_write_overflow_fails cb_full_state [9] 1 (Or.inl rfl)

/-- C2 counterexample: from `circular_buffer_init 4 1`, a successful
exact-fill write of four bytes leaves `full = false` while the occupied
byte count equals `capacity_bytes = 4`, refuting `full` iff occupied =
capacity; and `(write_cursor - read_cursor) % capacity = 0`, not 4,
refuting the claimed mod formula for the occupied count. -/
theorem c2_counterexample :
    circular_buffer_init 4 1 = some cb2_init ∧
    (circular_buffer_write cb2_init [1, 2, 3, 4] 4).1 = true ∧
    cb2_filled.full = false ∧
    cb2_filled.size = 4 ∧
    get_unread_size cb2_filled = 4 ∧
    (cb2_filled.write_off - cb2_filled.read_off) % cb2_filled.size = 0 := by
  exact ⟨rfl, rfl, rfl, rfl, rfl, rfl⟩

/-- C1: on the two-element list `[5, 7]` with an iterator on the tail,
`iterator_get` removes the node, decrements the count to 1 and returns the
payload 7, and the new head/tail is node 1 — but the iterator's position
becomes absent (`none`) instead of the new tail: `update_desc` has already
moved `list->last` when the repositioning test `it->elem == it->list->last`
runs, so the test never fires and the iterator takes the removed tail's
`next`, which is null.  Removing a non-tail node does move the iterator to
the successor (second conjunct). -/
theorem c1_iterator_get_tail_bug :
    d_ab.nb_elements = 2 ∧
    (iterator_init d_ab false).2 = d_ab.last ∧
    (iterator_get (iterator_init d_ab false).1
        (iterator_init d_ab false).2).map
      (fun r => (r.1, r.2.1, r.2.2.1.nb_elements, r.2.2.1.first,
                 r.2.2.1.last, r.2.2.2)) =
      some (true, 7, 1, some 1, some 1, none) ∧
    (iterator_get (iterator_init d_ab true).1
        (iterator_init d_ab true).2).map
      (fun r => (r.1, r.2.1, r.2.2.1.nb_elements, r.2.2.1.first,
                 r.2.2.1.last, r.2.2.2)) =
      some (true, 5, 1, some 2, some 2, some 2) := by
  exact ⟨rfl, rfl, rfl, rfl⟩

/-- C4: replacing on an empty target does not return `FAILURE`:
`list_edit_first` and `list_edit_last` dereference the null `first`/`last`
pointer of an empty list, and `iterator_edit` dereferences the null
`it->elem` of an iterator with no current position (`none` = undefined
behaviour in the model, distinct from a `FAILURE` return). -/
theorem c4_edit_empty_crash :
    list_edit_first d_empty 5 = none ∧
    list_edit_last d_empty 5 = none ∧
    (iterator_init d_empty true).2 = none ∧
    iterator_edit (iterator_init d_empty true).1
      (iterator_init d_empty true).2 5 = none := by
  exact ⟨rfl, rfl, rfl, rfl⟩

/-- C9: `list_remove` on a list with a live iterator fails and returns the
list untouched; but with no iterators, on a list whose payloads are
`[NULL, 5]`, the drain loop `while (data)` stops at the `NULL` payload:
the descriptor is freed (`SUCCESS`) while one element is still linked
(`nb_elements = 1`), so not all elements are drained. -/
theorem c9_remove_drain_bug :
    list_remove { d_ab with nb_iterators := 1 } =
      some (false, { d_ab with nb_iterators := 1 }) ∧
    d_nullpay.nb_elements = 2 ∧
    (list_remove d_nullpay).map
      (fun r => (r.1, r.2.nb_elements, r.2.first)) =
      some (true, 1, some 2) := by
  exact ⟨rfl, rfl, rfl⟩

/-- C6 counterexample: on a one-element list, `iterator_move` with
`n = -2^31` returns `SUCCESS` with the position unchanged, although taking
`|n| = 2^31` steps toward the head leaves the chain; C's `abs` wraps
`INT32_MIN` to itself, so the walk runs zero iterations. -/
theorem c6_counterexample :
    d_one.nb_elements = 1 ∧
    (iterator_init d_one true).2 = some 1 ∧
    iterator_move d_one (some 1) (-(2 ^ 31)) = some (true, some 1) := by
  exact ⟨rfl, rfl, rfl⟩

/-- C10: `list_init` with a null comparator installs
`default_comparator`, which is the pointer difference truncated to a
signed 32-bit value; it reports two references equal exactly when their
difference is a multiple of `2^32`, so the distinct references `2^32` and
`0` compare equal. -/
theorem c10_default_comparator :
    (list_init none .LIST_DEFAULT).1.comparator = default_comparator ∧
    (∀ a b : Nat,
      default_comparator a b = 0 ↔ (2 ^ 32 : Int) ∣ ((a : Int) - b)) ∧
    default_comparator (2 ^ 32) 0 = 0 ∧ (2 ^ 32 : Nat) ≠ 0 := by
  refine ⟨rfl, ?_, by decide, by norm_num⟩
  intro a b
  unfold default_comparator toInt32
  omega

/-- Witness for C10: the collision instance obtained from the theorem. -/
theorem c10_witness : default_comparator 4294967296 0 = 0 :=
  (c10_default_comparator.2.1 4294967296 0).mpr (by norm_num)

theorem memcpy_at_length (b src : List Nat) (off : Nat)
    (h : off + src.length ≤ b.length) :
    (memcpy_at b off src).length = b.length := by
  simp [memcpy_at]
  omega

theorem get_unread_size_le (d : circular_buffer)
    (h1 : d.read_off ≤ d.size) (h2 : d.write_off ≤ d.size) :
    get_unread_size d ≤ d.size := by
  unfold get_unread_size
  split_ifs <;> omega

/-- C2 (amended): construction establishes, and every successful write and
read preserves (for every element count, including zero), the invariant
that both cursors lie within `[0, capacity_bytes]` — a cursor may rest
exactly at capacity — the declared capacity never exceeds the backing
region, and `full` implies the cursors coincide.  The claim's biconditional
`full` iff occupied = capacity does not hold (see the counterexample). -/
theorem c2_invariant :
    (∀ nb es d, circular_buffer_init nb es = some d → cb_inv d) ∧
    (∀ d data n d', cb_inv d → circular_buffer_write d data n = (true, d') →
      cb_inv d') ∧
    (∀ d n out d', cb_inv d → circular_buffer_read d n = (true, out, d') →
      cb_inv d') := by
  refine ⟨?_, ?_, ?_⟩
  · intro nb es d h
    unfold circular_buffer_init at h
    dsimp only at h
    split at h
    · simp at h
    · split at h
      · simp at h
      · obtain rfl := Option.some.inj h
        refine ⟨Nat.zero_le _, Nat.zero_le _, ?_, by simp⟩
        simpa using Nat.mod_le _ _
  · intro d data n d' hinv heq
    obtain ⟨hr, hw, hb, hfi⟩ := hinv
    have hunread := get_unread_size_le d hr hw
    unfold circular_buffer_write at heq
    dsimp only at heq
    split at heq
    · simp at heq
    · next hf =>
      simp only [Bool.not_eq_true] at hf
      split at heq
      · simp at heq
      · next hle =>
        push_neg at hle
        split at heq
        · next hwrap =>
          have hb1 : (memcpy_at d.buff d.write_off
              (List.take (d.size - d.write_off) data)).length =
              d.buff.length := by
            apply memcpy_at_length
            simp only [List.length_take]
            omega
          have hb2 : (memcpy_at
              (memcpy_at d.buff d.write_off
                (List.take (d.size - d.write_off) data)) 0
              (List.take (elements_to_size d n - (d.size - d.write_off))
                (List.drop (d.size - d.write_off) data))).length =
              d.buff.length := by
            rw [memcpy_at_length]
            · exact hb1
            · rw [hb1]
              simp only [List.length_take]
              omega
          simp only [Prod.mk.injEq, true_and] at heq
          subst heq
          split
          · next hfull =>
            exact ⟨hr, by dsimp only; omega, by dsimp only; omega,
                   fun _ => by dsimp only at hfull ⊢; omega⟩
          · next hfull =>
            exact ⟨hr, by dsimp only; omega, by dsimp only; omega,
                   fun hcon => by rw [hf] at hcon; cases hcon⟩
        · next hnwrap =>
          push_neg at hnwrap
          have hb1 : (memcpy_at d.buff d.write_off
              (List.take (elements_to_size d n) data)).length =
              d.buff.length := by
            apply memcpy_at_length
            simp only [List.length_take]
            omega
          simp only [Prod.mk.injEq, true_and] at heq
          subst heq
          split
          · next hfull =>
            exact ⟨hr, by dsimp only; omega, by dsimp only; omega,
                   fun _ => by dsimp only at hfull ⊢; omega⟩
          · next hfull =>
            exact ⟨hr, by dsimp only; omega, by dsimp only; omega,
                   fun hcon => by rw [hf] at hcon; cases hcon⟩
  · intro d n out d' hinv heq
    obtain ⟨hr, hw, hb, hfi⟩ := hinv
    have hunread := get_unread_size_le d hr hw
    unfold circular_buffer_read at heq
    dsimp only at heq
    split at heq
    · simp at heq
    · next hle =>
      push_neg at hle
      split at heq
      · simp only [Prod.mk.injEq, true_and] at heq
        obtain ⟨-, rfl⟩ := heq
        exact ⟨by dsimp only; omega, hw, hb, by simp⟩
      · next hnwrap =>
        push_neg at hnwrap
        simp only [Prod.mk.injEq, true_and] at heq
        obtain ⟨-, rfl⟩ := heq
        exact ⟨by dsimp only; omega, hw, hb, by simp⟩

/-- Witness for C2: the invariant evaluated through `circular_buffer_init`,
a concrete write and a concrete read. -/
theorem c2_invariant_witness :
    cb_inv cb2_init ∧ cb_inv (circular_buffer_write cb2_init [9] 1).2 ∧
    cb_inv (circular_buffer_read cb2_filled 2).2.2 :=
  ⟨c2_invariant.1 4 1 cb2_init rfl,
   c2_invariant.2.1 cb2_init [9] 1 _ (by decide) rfl,
   c2_invariant.2.2 cb2_filled 2 _ _ (by decide) rfl⟩



/-- C7: from any well-formed ring buffer state holding no unread data
(cursors equal, `full` clear), writing `k` elements and then reading `k`
elements both succeed and the read delivers exactly the bytes written, in
order — including when the copy wraps around the end of the backing
region. -/
theorem c7_roundtrip (d : circular_buffer) (data : List Nat) (k : Nat)
    (hfull : d.full = false) (hrw : d.read_off = d.write_off)
    (hw : d.write_off ≤ d.size) (hb : d.size ≤ d.buff.length)
    (hlen : data.length = k * d.elem_size)
    (hcap : k * d.elem_size ≤ d.size)
    (h32 : k * d.elem_size < 2 ^ 32) :
    (circular_buffer_write d data k).1 = true ∧
    (circular_buffer_read (circular_buffer_write d data k).2 k).1 = true ∧
    (circular_buffer_read (circular_buffer_write d data k).2 k).2.1 = data := by
  obtain ⟨s, ne, es, L, r, r, fl⟩ := d
  dsimp only at hfull hrw hw hb hlen hcap h32
  subst hfull
  subst hrw
  have hets : ∀ L1 r1 w1 (fl1 : Bool),
      elements_to_size ⟨s, ne, es, L1, r1, w1, fl1⟩ k = k * es := by
    intro L1 r1 w1 fl1
    simp only [elements_to_size]
    omega
  have hunread : get_unread_size ⟨s, ne, es, L, r, r, false⟩ = 0 := by
    simp [get_unread_size]
  by_cases hwrap : k * es > s - r
  · -- the write wraps around the end of the region
    have hste : (data.take (s - r)).length = s - r := by
      rw [List.length_take]
      omega
    have hsrc2 : (data.drop (s - r)).take (k * es - (s - r)) =
        data.drop (s - r) := by
      apply List.take_of_length_le
      rw [List.length_drop]
      omega
    have hsrc2len : (data.drop (s - r)).length = k * es - (s - r) := by
      rw [List.length_drop]
      omega
    have hb1 : memcpy_at L r (data.take (s - r)) =
        L.take r ++ data.take (s - r) ++ L.drop s := by
      unfold memcpy_at
      rw [hste]
      congr 2
      omega
    have hW : circular_buffer_write ⟨s, ne, es, L, r, r, false⟩ data k =
        (true,
          if k * es - (s - r) = r then
            ⟨s, ne, es,
             data.drop (s - r) ++
               (L.take r ++ data.take (s - r) ++ L.drop s).drop
                 (k * es - (s - r)),
             r, k * es - (s - r), true⟩
          else
            ⟨s, ne, es,
             data.drop (s - r) ++
               (L.take r ++ data.take (s - r) ++ L.drop s).drop
                 (k * es - (s - r)),
             r, k * es - (s - r), false⟩) := by
      unfold circular_buffer_write
      dsimp only
      rw [hets, hunread]
      rw [if_neg (by simp), if_neg (by omega), if_pos (by omega)]
      rw [hb1]
      unfold memcpy_at
      rw [hsrc2, hsrc2len]
      simp only [List.take_zero, List.nil_append, Nat.zero_add]
    rw [hW]
    have hb2drop :
        ((data.drop (s - r) ++
          (L.take r ++ data.take (s - r) ++ L.drop s).drop
            (k * es - (s - r))).drop r).take (s - r) =
        data.take (s - r) := by
      rw [List.drop_append_eq_append_drop,
          List.drop_eq_nil_of_le (by omega), hsrc2len]
      rw [List.nil_append, List.drop_drop]
      have hww : k * es - (s - r) + (r - (k * es - (s - r))) = r := by omega
      rw [hww]
      rw [List.append_assoc,
          List.drop_left' (show (L.take r).length = r by
            rw [List.length_take]; omega)]
      exact List.take_left' hste
    have hb2take :
        (data.drop (s - r) ++
          (L.take r ++ data.take (s - r) ++ L.drop s).drop
            (k * es - (s - r))).take (k * es - (s - r)) =
        data.drop (s - r) := List.take_left' hsrc2len
    by_cases hfullset : k * es - (s - r) = r
    · rw [if_pos hfullset]
      have hR : circular_buffer_read
          (⟨s, ne, es,
            data.drop (s - r) ++
              (L.take r ++ data.take (s - r) ++ L.drop s).drop
                (k * es - (s - r)),
            r, k * es - (s - r), true⟩ : circular_buffer) k =
          (true, data,
           ⟨s, ne, es,
            data.drop (s - r) ++
              (L.take r ++ data.take (s - r) ++ L.drop s).drop
                (k * es - (s - r)),
            k * es - (s - r), k * es - (s - r), false⟩) := by
        unfold circular_buffer_read
        dsimp only
        rw [hets]
        rw [if_neg (by simp [get_unread_size] <;> omega)]
        rw [if_pos (by omega)]
        rw [hb2drop, hb2take, List.take_append_drop]
      rw [hR]
      exact ⟨rfl, rfl, rfl⟩
    · rw [if_neg hfullset]
      have hR : circular_buffer_read
          (⟨s, ne, es,
            data.drop (s - r) ++
              (L.take r ++ data.take (s - r) ++ L.drop s).drop
                (k * es - (s - r)),
            r, k * es - (s - r), false⟩ : circular_buffer) k =
          (true, data,
           ⟨s, ne, es,
            data.drop (s - r) ++
              (L.take r ++ data.take (s - r) ++ L.drop s).drop
                (k * es - (s - r)),
            k * es - (s - r), k * es - (s - r), false⟩) := by
        unfold circular_buffer_read
        dsimp only
        rw [hets]
        rw [if_neg (by
          unfold get_unread_size
          dsimp only
          rw [if_neg (by simp), if_pos (by omega)]
          omega)]
        rw [if_pos (by omega)]
        rw [hb2drop, hb2take, List.take_append_drop]
      rw [hR]
      exact ⟨rfl, rfl, rfl⟩
  · -- the write fits before the end of the region
    push_neg at hwrap
    have hdata : data.take (k * es) = data :=
      List.take_of_length_le (le_of_eq hlen)
    have hW : circular_buffer_write ⟨s, ne, es, L, r, r, false⟩ data k =
        (true,
          if r + k * es = r then
            ⟨s, ne, es, L.take r ++ data ++ L.drop (r + k * es), r,
             r + k * es, true⟩
          else
            ⟨s, ne, es, L.take r ++ data ++ L.drop (r + k * es), r,
             r + k * es, false⟩) := by
      unfold circular_buffer_write
      dsimp only
      rw [hets, hunread]
      rw [if_neg (by simp), if_neg (by omega), if_neg (by omega)]
      unfold memcpy_at
      rw [hdata, hlen]
    rw [hW]
    by_cases h0 : r + k * es = r
    · rw [if_pos h0]
      have hdnil : data = [] := List.eq_nil_of_length_eq_zero (by omega)
      subst hdnil
      refine ⟨rfl, ?_, ?_⟩
      · unfold circular_buffer_read
        dsimp only
        rw [hets]
        rw [if_neg (by simp [get_unread_size] <;> omega)]
        rw [if_neg (by omega)]
      · unfold circular_buffer_read
        dsimp only
        rw [hets]
        rw [if_neg (by simp [get_unread_size] <;> omega)]
        rw [if_neg (by omega)]
        dsimp only
        rw [show k * es = 0 by omega, List.take_zero]
    · rw [if_neg h0]
      refine ⟨rfl, ?_, ?_⟩
      · unfold circular_buffer_read
        dsimp only
        rw [hets]
        rw [if_neg (by simp [get_unread_size] <;> omega)]
        rw [if_neg (by omega)]
      · unfold circular_buffer_read
        dsimp only
        rw [hets]
        rw [if_neg (by simp [get_unread_size] <;> omega)]
        rw [if_neg (by omega)]
        dsimp only
        rw [List.append_assoc,
            List.drop_left' (show (L.take r).length = r by
              rw [List.length_take]; omega)]
        exact List.take_left' hlen

/-- Witness for C7 on a buffer whose cursors rest mid-region, so the
3-byte round trip wraps around the end of the backing region. -/
theorem c7_witness :
    (circular_buffer_write cb_wrap_state [9, 8, 7] 3).1 = true ∧
    (circular_buffer_read
      (circular_buffer_write cb_wrap_state [9, 8, 7] 3).2 3).1 = true ∧
    (circular_buffer_read
      (circular_buffer_write cb_wrap_state [9, 8, 7] 3).2 3).2.1 =
      [9, 8, 7] :=
  c7_roundtrip cb_wrap_state [9, 8, 7] 3 rfl rfl (by decide) (by decide)
    (by decide) (by decide) (by decide)

theorem hget_hmodify_ne (h : Heap) (a b : Nat) (f : list_elem → list_elem)
    (hne : b ≠ a) : hget (hmodify h a f) b = hget h b := by
  induction h with
  | nil => rfl
  | cons p t ih =>
    obtain ⟨c, e⟩ := p
    by_cases hca : a = c
    · subst hca
      simp [hmodify, hget, hne]
    · by_cases hbc : b = c
      · simp [hmodify, hget, hca, hbc]
      · simp [hmodify, hget, hca, hbc, ih]

theorem hget_hmodify_self (h : Heap) (a : Nat) (f : list_elem → list_elem) :
    hget (hmodify h a f) a = (hget h a).map f := by
  induction h with
  | nil => rfl
  | cons p t ih =>
    obtain ⟨c, e⟩ := p
    by_cases hca : a = c
    · subst hca
      simp [hmodify, hget]
    · simp [hmodify, hget, hca, ih]

theorem hget_hdel_ne (h : Heap) (a b : Nat) (hne : b ≠ a) :
    hget (hdel h a) b = hget h b := by
  induction h with
  | nil => rfl
  | cons p t ih =>
    obtain ⟨c, e⟩ := p
    by_cases hca : a = c
    · subst hca
      simp [hdel, hget, hne]
    · by_cases hbc : b = c
      · simp [hdel, hget, hca, hbc]
      · simp [hdel, hget, hca, hbc, ih]

theorem hmodify_keys (h : Heap) (a : Nat) (f : list_elem → list_elem) :
    (hmodify h a f).map Prod.fst = h.map Prod.fst := by
  induction h with
  | nil => rfl
  | cons p t ih =>
    obtain ⟨c, e⟩ := p
    by_cases hca : a = c
    · simp [hmodify, hca]
    · simp [hmodify, hca, ih]

theorem hdel_keys (h : Heap) (a : Nat) :
    (hdel h a).map Prod.fst = (h.map Prod.fst).erase a := by
  induction h with
  | nil => rfl
  | cons p t ih =>
    obtain ⟨c, e⟩ := p
    by_cases hca : a = c
    · subst hca
      simp [hdel, List.erase_cons_head]
    · rw [List.map_cons, List.erase_cons_tail, ← ih]
      · simp [hdel, hca]
      · simp [Ne.symm hca]

theorem hget_not_mem (h : Heap) (a : Nat) (hmem : a ∉ h.map Prod.fst) :
    hget h a = none := by
  induction h with
  | nil => rfl
  | cons p t ih =>
    obtain ⟨c, e⟩ := p
    simp only [List.map_cons, List.mem_cons, not_or] at hmem
    unfold hget
    rw [if_neg hmem.1]
    exact ih hmem.2

theorem isChainB_congr (h h' : Heap) (as : List Nat) :
    ∀ prv cur, (∀ a ∈ as, hget h' a = hget h a) →
    isChainB h' prv cur as = isChainB h prv cur as := by
  induction as with
  | nil => intro prv cur _; rfl
  | cons a as ih =>
    intro prv cur hagree
    unfold isChainB
    rw [hagree a (by simp)]
    cases hget h a with
    | none => rfl
    | some e =>
      simp only
      rw [ih (some a) e.next (fun b hb => hagree b (by simp [hb]))]

theorem payloads_congr (h h' : Heap) (as : List Nat)
    (hagree : ∀ a ∈ as, hget h' a = hget h a) :
    payloads h' as = payloads h as := by
  unfold payloads
  apply List.map_congr_left
  intro a ha
  unfold dataOf
  rw [hagree a ha]

theorem chain_head (h : Heap) (prv cur : Option Nat) (as : List Nat)
    (hch : isChainB h prv cur as = true) : cur = as.head? := by
  cases as with
  | nil => simpa [isChainB] using hch
  | cons a as =>
    unfold isChainB at hch
    simp only [Bool.and_eq_true, decide_eq_true_eq] at hch
    simpa using hch.1

theorem chain_node (h : Heap) (as : List Nat) :
    ∀ prv cur, isChainB h prv cur as = true → ∀ i (hi : i < as.length),
    ∃ e, hget h as[i] = some e ∧
         e.next = as[i + 1]? ∧
         e.prev = if i = 0 then prv else as[i - 1]? := by
  induction as with
  | nil => intro _ _ _ i hi; simp at hi
  | cons a as ih =>
    intro prv cur hch i hi
    unfold isChainB at hch
    simp only [Bool.and_eq_true, decide_eq_true_eq] at hch
    obtain ⟨hcur, hrest⟩ := hch
    rcases hg : hget h a with _ | e
    · rw [hg] at hrest; cases hrest
    · rw [hg] at hrest
      simp only [Bool.and_eq_true, decide_eq_true_eq] at hrest
      obtain ⟨hprev, hch'⟩ := hrest
      cases i with
      | zero =>
        refine ⟨e, by simpa using hg, ?_, by simpa using hprev⟩
        rw [chain_head h (some a) e.next as hch']
        cases as <;> simp
      | succ i =>
        have hi' : i < as.length := by simpa using hi
        obtain ⟨e', hg', hn', hp'⟩ := ih (some a) e.next hch' i hi'
        refine ⟨e', by simpa using hg', by simpa using hn', ?_⟩
        rw [hp']
        cases i with
        | zero => simp
        | succ j => simp

theorem walk_n_from_none (h : Heap) (fwd : Bool) (k : Nat) :
    walk_n h fwd k none = some none := by
  cases k <;> rfl

theorem walk_n_fwd (h : Heap) (as : List Nat) (prv cur : Option Nat)
    (hch : isChainB h prv cur as = true) :
    ∀ k i (hi : i < as.length),
    walk_n h true k (some as[i]) = some as[i + k]? := by
  intro k
  induction k with
  | zero =>
    intro i hi
    simp [walk_n, List.getElem?_eq_getElem hi]
  | succ k ihk =>
    intro i hi
    obtain ⟨e, hg, hn, _⟩ := chain_node h as prv cur hch i hi
    unfold walk_n
    rw [hg]
    dsimp only
    rw [if_pos rfl]
    by_cases hi1 : i + 1 < as.length
    · rw [hn, List.getElem?_eq_getElem hi1]
      rw [ihk (i + 1) hi1]
      have hidx : i + 1 + k = i + (k + 1) := by omega
      rw [hidx]
    · rw [hn, List.getElem?_eq_none (by omega)]
      rw [walk_n_from_none]
      rw [List.getElem?_eq_none (by omega)]

theorem walk_n_bwd (h : Heap) (as : List Nat) (cur : Option Nat)
    (hch : isChainB h none cur as = true) :
    ∀ k i (hi : i < as.length),
    walk_n h false k (some as[i]) =
      some (if k ≤ i then as[i - k]? else none) := by
  intro k
  induction k with
  | zero =>
    intro i hi
    simp [walk_n, List.getElem?_eq_getElem hi]
  | succ k ihk =>
    intro i hi
    obtain ⟨e, hg, _, hp⟩ := chain_node h as none cur hch i hi
    unfold walk_n
    rw [hg]
    dsimp only
    rw [if_neg (by simp)]
    by_cases hi0 : i = 0
    · subst hi0
      rw [hp, if_pos rfl, walk_n_from_none]
      simp
    · rw [hp, if_neg hi0]
      have hi1 : i - 1 < as.length := by omega
      rw [List.getElem?_eq_getElem hi1]
      rw [ihk (i - 1) hi1]
      by_cases hk : k + 1 ≤ i
      · rw [if_pos (by omega), if_pos hk]
        have hidx : i - 1 - k = i - (k + 1) := by omega
        rw [hidx]
      · rw [if_neg (by omega), if_neg hk]

/-- C6 (amended): for every iterator positioned on node `i` of a
well-formed list and every 32-bit `n` with `-2^31 < n < 2^31`,
`iterator_move` succeeds iff `i + n` stays within the chain, in which case
the iterator ends exactly `|n|` nodes away in the direction of `sign(n)`;
otherwise it fails with the position unchanged (no partial movement). -/
theorem c6_move_spec (d : list_desc) (as : List Nat) (i : Nat) (idx : Int)
    (hwf : wf d as) (hi : i < as.length)
    (hlo : -(2 ^ 31) < idx) (hhi : idx < 2 ^ 31) :
    iterator_move d (some as[i]) idx =
      if 0 ≤ (i : Int) + idx ∧ (i : Int) + idx < as.length
      then some (true, as[((i : Int) + idx).toNat]?)
      else some (false, some as[i]) := by
  obtain ⟨hch, -, -, -, -, -⟩ := hwf
  have habs : (abs32 idx).toNat = idx.natAbs := by
    unfold abs32
    rw [if_neg (by omega)]
    exact Int.toNat_natCast _
  unfold iterator_move
  dsimp only
  rw [habs]
  by_cases hneg : idx < 0
  · rw [if_pos hneg]
    rw [show decide ((0 : Int) < -1) = false from rfl]
    rw [walk_n_bwd d.heap as d.first hch idx.natAbs i hi]
    by_cases hc : idx.natAbs ≤ i
    · rw [if_pos hc]
      have hb : i - idx.natAbs < as.length := by omega
      rw [List.getElem?_eq_getElem hb]
      dsimp only
      rw [if_pos (by constructor <;> [omega; omega])]
      have htn : ((i : Int) + idx).toNat = i - idx.natAbs := by omega
      rw [htn, List.getElem?_eq_getElem hb]
    · rw [if_neg hc]
      dsimp only
      rw [if_neg (by intro hcon; omega)]
  · rw [if_neg hneg]
    rw [show decide ((0 : Int) < 1) = true from rfl]
    rw [walk_n_fwd d.heap as none d.first hch idx.natAbs i hi]
    by_cases hlt : i + idx.natAbs < as.length
    · rw [List.getElem?_eq_getElem hlt]
      dsimp only
      rw [if_pos (by constructor <;> [omega; omega])]
      have htn : ((i : Int) + idx).toNat = i + idx.natAbs := by omega
      rw [htn, List.getElem?_eq_getElem hlt]
    · rw [List.getElem?_eq_none (by omega)]
      dsimp only
      rw [if_neg (by intro hcon; omega)]

/-- Witness for C6 on the concrete list `[5, 7]`: a one-step move
succeeds, a five-step move fails without drift (Scenario D). -/
theorem c6_witness :
    iterator_move d_ab (some 1) 1 = some (true, some 2) ∧
    iterator_move d_ab (some 1) 5 = some (false, some 1) := by
  have h1 := c6_move_spec d_ab [1, 2] 0 1 (by decide) (by norm_num)
    (by norm_num) (by norm_num)
  have h2 := c6_move_spec d_ab [1, 2] 0 5 (by decide) (by norm_num)
    (by norm_num) (by norm_num)
  norm_num at h1 h2
  exact ⟨h1, h2⟩

theorem isChainB_nil_iff (h : Heap) (prv cur : Option Nat) :
    isChainB h prv cur [] = true ↔ cur = none := by
  simp [isChainB]

theorem isChainB_cons_iff (h : Heap) (prv cur : Option Nat) (a : Nat)
    (as : List Nat) :
    isChainB h prv cur (a :: as) = true ↔
    cur = some a ∧ ∃ e, hget h a = some e ∧ e.prev = prv ∧
      isChainB h (some a) e.next as = true := by
  constructor
  · intro hch
    unfold isChainB at hch
    simp only [Bool.and_eq_true, decide_eq_true_eq] at hch
    obtain ⟨h1, hmatch⟩ := hch
    cases hg : hget h a with
    | none => rw [hg] at hmatch; cases hmatch
    | some e =>
      rw [hg] at hmatch
      simp only [Bool.and_eq_true, decide_eq_true_eq] at hmatch
      exact ⟨h1, e, rfl, hmatch.1, hmatch.2⟩
  · rintro ⟨hcur, e, hg, hp, hrest⟩
    unfold isChainB
    rw [hg]
    simp [hcur, hp, hrest]

theorem chain_prepend (h h' : Heap) (nw x : Nat) (as : List Nat)
    (cur : Option Nat)
    (hch : isChainB h none cur as = true)
    (hnodup : as.Nodup)
    (hagree : ∀ b ∈ as, (∀ c, as.head? = some c → b ≠ c) →
      hget h' b = hget h b)
    (hhead : ∀ b e, as.head? = some b → hget h b = some e →
      hget h' b = some { e with prev := some nw })
    (hnew : hget h' nw = some ⟨x, none, cur⟩) :
    isChainB h' none (some nw) (nw :: as) = true := by
  rw [isChainB_cons_iff]
  refine ⟨rfl, ⟨x, none, cur⟩, hnew, rfl, ?_⟩
  cases as with
  | nil =>
    rw [isChainB_nil_iff]
    rw [isChainB_nil_iff] at hch
    simpa using hch
  | cons b bs =>
    rw [isChainB_cons_iff] at hch
    obtain ⟨hcur, e, hg, hp, hrest⟩ := hch
    dsimp only
    rw [hcur]
    rw [isChainB_cons_iff]
    refine ⟨rfl, { e with prev := some nw }, hhead b e rfl hg, rfl, ?_⟩
    dsimp only
    rw [isChainB_congr h h' bs (some b) e.next ?_]
    · exact hrest
    · intro c hc
      apply hagree c (by simp [hc])
      intro c' hc'
      obtain rfl := Option.some.inj hc'
      simp only [List.nodup_cons] at hnodup
      exact fun hcb => hnodup.1 (hcb ▸ hc)

theorem chain_tail (h h' : Heap) (a : Nat) (as : List Nat)
    (hch : isChainB h none (some a) (a :: as) = true)
    (hnodup : (a :: as).Nodup)
    (hagree : ∀ b ∈ as, (∀ c, as.head? = some c → b ≠ c) →
      hget h' b = hget h b)
    (hhead : ∀ b e, as.head? = some b → hget h b = some e →
      hget h' b = some { e with prev := none }) :
    isChainB h' none as.head? as = true := by
  rw [isChainB_cons_iff] at hch
  obtain ⟨-, e, hg, hp, hrest⟩ := hch
  cases as with
  | nil => simp [isChainB_nil_iff]
  | cons b bs =>
    rw [isChainB_cons_iff] at hrest
    obtain ⟨hcur, eb, hgb, hpb, hrest2⟩ := hrest
    simp only [List.head?_cons]
    rw [isChainB_cons_iff]
    refine ⟨rfl, { eb with prev := none }, hhead b eb rfl hgb, rfl, ?_⟩
    dsimp only
    rw [isChainB_congr h h' bs (some b) eb.next ?_]
    · exact hrest2
    · intro c hc
      apply hagree c (by simp [hc])
      intro c' hc'
      obtain rfl := Option.some.inj hc'
      simp only [List.nodup_cons] at hnodup
      exact fun hcb => hnodup.2.1 (hcb ▸ hc)

theorem mem_of_getLast? {l : List Nat} {a : Nat} (h : l.getLast? = some a) :
    a ∈ l := by
  have hx : a ∈ l.getLast? := by rw [h]; rfl
  obtain ⟨hne, rfl⟩ := List.mem_getLast?_eq_getLast hx
  exact List.getLast_mem hne

theorem chain_snoc (h h' : Heap) (nw x la : Nat) (as : List Nat) :
    ∀ prv cur, isChainB h prv cur as = true →
    as.getLast? = some la → as.Nodup →
    (∀ b ∈ as, b ≠ la → hget h' b = hget h b) →
    (∀ e, hget h la = some e → hget h' la = some { e with next := some nw }) →
    hget h' nw = some ⟨x, some la, none⟩ →
    isChainB h' prv cur (as ++ [nw]) = true := by
  induction as with
  | nil => intro _ _ _ hlast; simp at hlast
  | cons a as ih =>
    intro prv cur hch hlast hnodup hagree hla hnew
    rw [isChainB_cons_iff] at hch
    obtain ⟨hcur, e, hg, hp, hrest⟩ := hch
    cases as with
    | nil =>
      obtain rfl : la = a := by simpa using hlast.symm
      simp only [List.nil_append, List.singleton_append]
      rw [isChainB_cons_iff]
      refine ⟨hcur, { e with next := some nw }, hla e hg, hp, ?_⟩
      dsimp only
      rw [isChainB_cons_iff]
      exact ⟨rfl, ⟨x, some la, none⟩, hnew, rfl, by simp [isChainB_nil_iff]⟩
    | cons b bs =>
      rw [List.getLast?_cons_cons] at hlast
      have hla_mem : la ∈ b :: bs := mem_of_getLast? hlast
      simp only [List.nodup_cons] at hnodup
      have hane : a ≠ la := fun hal => hnodup.1 (hal ▸ hla_mem)
      rw [List.cons_append]
      rw [isChainB_cons_iff]
      refine ⟨hcur, e, ?_, hp, ?_⟩
      · rw [hagree a (by simp) hane]
        exact hg
      · exact ih (some a) e.next hrest hlast
          (by simp [List.nodup_cons, hnodup.2])
          (fun c hc hcla => hagree c (by simp [hc]) hcla) hla hnew

theorem chain_mid (h h' : Heap) (nw x : Nat) (as : List Nat) :
    ∀ j prv cur, isChainB h prv cur as = true →
    0 < j → ∀ hj : j < as.length,
    as.Nodup →
    (∀ b ∈ as, b ≠ as[j - 1] → b ≠ as[j] → hget h' b = hget h b) →
    (∀ e, hget h as[j - 1] = some e →
      hget h' as[j - 1] = some { e with next := some nw }) →
    (∀ e, hget h as[j] = some e →
      hget h' as[j] = some { e with prev := some nw }) →
    hget h' nw = some ⟨x, some as[j - 1], some as[j]⟩ →
    isChainB h' prv cur (as.take j ++ nw :: as.drop j) = true := by
  induction as with
  | nil => intro j _ _ _ _ hj; simp at hj
  | cons a as ih =>
    intro j prv cur hch hj0 hj hnodup hagree hprv hnxt hnew
    rw [isChainB_cons_iff] at hch
    obtain ⟨hcur, e, hg, hp, hrest⟩ := hch
    simp only [List.nodup_cons] at hnodup
    match j, hj0 with
    | 1, _ =>
      cases as with
      | nil => simp at hj
      | cons b bs =>
        rw [isChainB_cons_iff] at hrest
        obtain ⟨hnxt_a, eb, hgb, hpb, hrest2⟩ := hrest
        simp only [List.take_succ_cons, List.take_zero, List.drop_succ_cons,
          List.drop_zero, List.cons_append, List.nil_append]
        have ha0 : (a :: b :: bs)[0] = a := rfl
        have ha1 : (a :: b :: bs)[1] = b := rfl
        rw [isChainB_cons_iff]
        refine ⟨hcur, { e with next := some nw }, ?_, hp, ?_⟩
        · have := hprv e (by rw [ha0]; exact hg)
          rw [ha0] at this
          exact this
        · dsimp only
          rw [isChainB_cons_iff]
          refine ⟨rfl, ⟨x, some a, some b⟩, ?_, rfl, ?_⟩
          · have := hnew
            rw [ha0, ha1] at this
            exact this
          · dsimp only
            rw [isChainB_cons_iff]
            refine ⟨rfl, { eb with prev := some nw }, ?_, rfl, ?_⟩
            · have := hnxt eb (by rw [ha1]; exact hgb)
              rw [ha1] at this
              exact this
            · dsimp only
              rw [isChainB_congr h h' bs (some b) eb.next ?_]
              · exact hrest2
              · intro c hc
                refine hagree c (by simp [hc]) ?_ ?_
                · rw [ha0]
                  exact fun hca => hnodup.1 (hca ▸ by simp [hc])
                · rw [ha1]
                  simp only [List.nodup_cons] at hnodup
                  exact fun hcb => hnodup.2.1 (hcb ▸ hc)
    | j + 2, _ =>
      have hj' : j + 1 < as.length := by simp at hj; omega
      have haj1 : (a :: as)[j + 2 - 1] = as[j + 1 - 1] := by
        simp
      have haj2 : (a :: as)[j + 2] = as[j + 1] := by
        simp
      have hamem : as[j + 1 - 1] ∈ as := by
        exact List.getElem_mem _
      have hamem2 : as[j + 1] ∈ as := List.getElem_mem _
      simp only [List.take_succ_cons, List.drop_succ_cons, List.cons_append]
      rw [isChainB_cons_iff]
      refine ⟨hcur, e, ?_, hp, ?_⟩
      · rw [hagree a (by simp) ?_ ?_]
        · exact hg
        · rw [haj1]
          exact fun hca => hnodup.1 (hca ▸ hamem)
        · rw [haj2]
          exact fun hca => hnodup.1 (hca ▸ hamem2)
      · refine ih (j + 1) (some a) e.next hrest (by omega) hj' hnodup.2
          ?_ ?_ ?_ ?_
        · intro c hc hc1 hc2
          refine hagree c (by simp [hc]) ?_ ?_
          · rw [haj1]; exact hc1
          · rw [haj2]; exact hc2
        · intro e' he'
          have := hprv e' (by rw [haj1]; exact he')
          rw [haj1] at this
          exact this
        · intro e' he'
          have := hnxt e' (by rw [haj2]; exact he')
          rw [haj2] at this
          exact this
        · have := hnew
          rw [haj1, haj2] at this
          exact this

theorem hget_cons_self (h : Heap) (a : Nat) (e : list_elem) :
    hget ((a, e) :: h) a = some e := by
  simp [hget]

theorem hget_cons_ne (h : Heap) (a b : Nat) (e : list_elem) (hne : b ≠ a) :
    hget ((a, e) :: h) b = hget h b := by
  simp [hget, hne]

theorem perm_keys_nil (d : list_desc) (hperm : (d.heap.map Prod.fst).Perm ([] : List Nat)) :
    d.heap.map Prod.fst = [] := hperm.eq_nil

theorem list_add_last_fields (d : list_desc) (x : Nat) :
    (list_add_last d x).2.comparator = d.comparator ∧
    (list_add_last d x).2.fresh = d.fresh + 1 ∧
    (list_add_last d x).2.nb_iterators = d.nb_iterators ∧
    (list_add_last d x).2.nb_elements = d.nb_elements + 1 := by
  unfold list_add_last create_element update_links update_desc
  dsimp only
  repeat' split
  all_goals exact ⟨rfl, rfl, rfl, rfl⟩

theorem list_add_last_spec (d : list_desc) (as : List Nat) (x : Nat)
    (hwf : wf d as) :
    (list_add_last d x).1 = true ∧
    wf (list_add_last d x).2 (as ++ [d.fresh]) ∧
    payloads (list_add_last d x).2.heap (as ++ [d.fresh]) =
      payloads d.heap as ++ [x] ∧
    (list_add_last d x).2.comparator = d.comparator ∧
    (list_add_last d x).2.fresh = d.fresh + 1 ∧
    (list_add_last d x).2.nb_iterators = d.nb_iterators := by
  obtain ⟨hch, hlast, hnb, hnodup, hbound, hperm⟩ := hwf
  have hfresh_nmem : d.fresh ∉ as := fun hmem => by
    have := hbound _ hmem
    omega
  cases as with
  | nil =>
    -- empty list: d.first = none, d.last = none
    have hfirst : d.first = none := by
      rw [isChainB_nil_iff] at hch
      exact hch
    have hlast' : d.last = none := by simpa using hlast
    have hkeys : d.heap.map Prod.fst = [] := hperm.eq_nil
    refine ⟨rfl, ?_, ?_, ?_, ?_, ?_⟩
    · unfold list_add_last create_element update_links update_desc
      rw [hlast']
      dsimp only
      rw [if_pos rfl]
      rw [if_pos (Or.inl hfirst)]
      refine ⟨?_, ?_, ?_, ?_, ?_, ?_⟩ <;> dsimp only <;>
        simp only [List.nil_append]
      · rw [isChainB_cons_iff]
        refine ⟨rfl, ⟨x, none, none⟩, ?_, rfl, by simp [isChainB_nil_iff]⟩
        rw [hget_hmodify_self, hget_cons_self]
        rfl
      · simp
      · simp [hnb]
      · simp
      · intro a ha
        simp only [List.mem_singleton] at ha
        subst ha
        omega
      · rw [hmodify_keys]
        simp [hkeys]
    · unfold list_add_last create_element update_links update_desc
      rw [hlast']
      dsimp only
      rw [if_pos rfl]
      rw [if_pos (Or.inl hfirst)]
      dsimp only
      unfold payloads dataOf
      simp only [List.nil_append, List.map_cons, List.map_nil]
      rw [hget_hmodify_self, hget_cons_self]
      rfl
    · exact (list_add_last_fields d x).1
    · exact (list_add_last_fields d x).2.1
    · exact (list_add_last_fields d x).2.2.1
  | cons b bs =>
    obtain ⟨la, hla⟩ : ∃ la, d.last = some la := by
      rw [hlast]
      cases hg : (b :: bs).getLast? with
      | none => simp at hg
      | some la => exact ⟨la, rfl⟩
    have hla_mem : la ∈ b :: bs := mem_of_getLast? (hla ▸ hlast).symm
    have hla_lt : la < d.fresh := hbound _ hla_mem
    have hfirst : d.first = some b := chain_head _ _ _ _ hch
    -- the heap after the operation
    have hheap : (list_add_last d x).2.heap =
        hmodify
          (hmodify ((d.fresh, ⟨x, d.last, none⟩) :: d.heap) la
            (fun n => { n with next := some d.fresh }))
          d.fresh (fun n => { n with prev := d.last, next := none }) := by
      unfold list_add_last create_element update_links update_desc
      rw [hla]
      dsimp only
      rw [if_pos rfl]
      split <;> rfl
    have hother : ∀ c, c ≠ la → c ≠ d.fresh →
        hget (list_add_last d x).2.heap c = hget d.heap c := by
      intro c hcla hcf
      rw [hheap, hget_hmodify_ne _ _ _ _ hcf, hget_hmodify_ne _ _ _ _ hcla,
          hget_cons_ne _ _ _ _ hcf]
    have hla_new : ∀ e, hget d.heap la = some e →
        hget (list_add_last d x).2.heap la = some { e with next := some d.fresh } := by
      intro e he
      rw [hheap, hget_hmodify_ne _ _ _ _ (by omega), hget_hmodify_self,
          hget_cons_ne _ _ _ _ (by omega), he]
      rfl
    have hfresh_new : hget (list_add_last d x).2.heap d.fresh =
        some ⟨x, some la, none⟩ := by
      rw [hheap, hget_hmodify_self, hget_hmodify_ne _ _ _ _ (by omega),
          hget_cons_self]
      simp [hla]
    have hfl : (list_add_last d x).2.first = d.first ∧
        (list_add_last d x).2.last = some d.fresh ∧
        (list_add_last d x).2.nb_elements = d.nb_elements + 1 ∧
        (list_add_last d x).2.comparator = d.comparator ∧
        (list_add_last d x).2.fresh = d.fresh + 1 ∧
        (list_add_last d x).2.nb_iterators = d.nb_iterators := by
      unfold list_add_last create_element update_links update_desc
      dsimp only
      rw [if_pos rfl]
      rw [if_neg (by simp [hfirst])]
      exact ⟨rfl, rfl, rfl, rfl, rfl, rfl⟩
    refine ⟨rfl, ?_, ?_, hfl.2.2.2.1, hfl.2.2.2.2.1, hfl.2.2.2.2.2⟩
    · refine ⟨?_, ?_, ?_, ?_, ?_, ?_⟩
      · rw [hfl.1, hfirst]
        have hhd : (b :: bs) ++ [d.fresh] = b :: (bs ++ [d.fresh]) := rfl
        rw [show d.first = some b from hfirst] at hch
        exact chain_snoc d.heap (list_add_last d x).2.heap d.fresh x la
          (b :: bs) none (some b) (hfirst ▸ hch) (hlast ▸ hla.symm ▸ rfl)
          hnodup
          (fun c hc hcla => hother c hcla
            (fun hcf => hfresh_nmem (hcf ▸ hc)))
          hla_new hfresh_new
      · rw [hfl.2.1, List.getLast?_concat]
      · rw [hfl.2.2.1, hnb]
        simp
      · refine List.Nodup.append hnodup (by simp) ?_
        intro c hc hc'
        simp only [List.mem_singleton] at hc'
        exact hfresh_nmem (hc' ▸ hc)
      · intro c hc
        rw [hfl.2.2.2.2.1]
        rcases List.mem_append.mp hc with hc | hc
        · have := hbound _ hc
          omega
        · simp only [List.mem_singleton] at hc
          omega
      · have hkeys : (list_add_last d x).2.heap.map Prod.fst =
            d.fresh :: d.heap.map Prod.fst := by
          rw [hheap, hmodify_keys, hmodify_keys]
          rfl
        rw [hkeys]
        exact (hperm.cons d.fresh).trans
          (List.perm_append_singleton d.fresh (b :: bs)).symm
    · unfold payloads
      rw [List.map_append]
      congr 1
      · apply List.map_congr_left
        intro c hc
        unfold dataOf
        by_cases hcla : c = la
        · subst hcla
          cases he : hget d.heap c with
          | none =>
            rw [hheap, hget_hmodify_ne _ _ _ _ (by omega),
                hget_hmodify_self, hget_cons_ne _ _ _ _ (by omega), he]
            rfl
          | some e => rw [hla_new e he]
        · rw [hother c hcla (fun hcf => hfresh_nmem (hcf ▸ hc))]
      · simp only [List.map_cons, List.map_nil]
        unfold dataOf
        rw [hfresh_new]

theorem list_add_first_fields (d : list_desc) (x : Nat) :
    (list_add_first d x).2.comparator = d.comparator ∧
    (list_add_first d x).2.fresh = d.fresh + 1 ∧
    (list_add_first d x).2.nb_iterators = d.nb_iterators ∧
    (list_add_first d x).2.nb_elements = d.nb_elements + 1 := by
  unfold list_add_first create_element update_links update_desc
  dsimp only
  repeat' split
  all_goals exact ⟨rfl, rfl, rfl, rfl⟩

theorem list_add_first_spec (d : list_desc) (as : List Nat) (x : Nat)
    (hwf : wf d as) :
    (list_add_first d x).1 = true ∧
    wf (list_add_first d x).2 (d.fresh :: as) ∧
    payloads (list_add_first d x).2.heap (d.fresh :: as) =
      x :: payloads d.heap as ∧
    (list_add_first d x).2.comparator = d.comparator ∧
    (list_add_first d x).2.fresh = d.fresh + 1 ∧
    (list_add_first d x).2.nb_iterators = d.nb_iterators := by
  obtain ⟨hch, hlast, hnb, hnodup, hbound, hperm⟩ := hwf
  have hfresh_nmem : d.fresh ∉ as := fun hmem => by
    have := hbound _ hmem
    omega
  have hfirst_ne : ¬ (some d.fresh = d.first) := by
    cases hf : d.first with
    | none => simp
    | some b =>
      have hb : b ∈ as := by
        have := chain_head _ _ _ _ hch
        rw [hf] at this
        cases as with
        | nil => simp at this
        | cons c cs =>
          obtain rfl : b = c := by simpa using this
          simp
      have := hbound _ hb
      simp only [Option.some.injEq]
      omega
  -- the heap after the operation
  have hheap : (list_add_first d x).2.heap =
      (match d.first with
       | some q =>
          hmodify
            (hmodify ((d.fresh, ⟨x, none, d.first⟩) :: d.heap) d.fresh
              (fun n => { n with prev := none, next := d.first }))
            q (fun n => { n with prev := some d.fresh })
       | none =>
          hmodify ((d.fresh, ⟨x, none, d.first⟩) :: d.heap) d.fresh
            (fun n => { n with prev := none, next := d.first })) := by
    unfold list_add_first create_element update_links update_desc
    dsimp only
    rw [if_neg hfirst_ne]
    split <;> rfl
  have hfresh_new : hget (list_add_first d x).2.heap d.fresh =
      some ⟨x, none, d.first⟩ := by
    rw [hheap]
    cases hf : d.first with
    | none =>
      rw [hget_hmodify_self, hget_cons_self]
      simp [hf]
    | some q =>
      have hq : q ∈ as := by
        have := chain_head _ _ _ _ hch
        rw [hf] at this
        cases as with
        | nil => simp at this
        | cons c cs =>
          obtain rfl : q = c := by simpa using this
          simp
      have hqlt := hbound _ hq
      rw [hget_hmodify_ne _ _ _ _ (by omega), hget_hmodify_self,
          hget_cons_self]
      simp [hf]
  have hhead_mod : ∀ b e, as.head? = some b → hget d.heap b = some e →
      hget (list_add_first d x).2.heap b =
        some { e with prev := some d.fresh } := by
    intro b e hb he
    have hfb : d.first = some b := by
      rw [chain_head _ _ _ _ hch, hb]
    have hbmem : b ∈ as := by
      cases as with
      | nil => simp at hb
      | cons c cs =>
        obtain rfl : b = c := by simpa using hb.symm
        simp
    have hblt := hbound _ hbmem
    rw [hheap, hfb]
    rw [hget_hmodify_self, hget_hmodify_ne _ _ _ _ (by omega),
        hget_cons_ne _ _ _ _ (by omega), he]
    rfl
  have hother : ∀ c ∈ as, (∀ b, as.head? = some b → c ≠ b) →
      hget (list_add_first d x).2.heap c = hget d.heap c := by
    intro c hc hcb
    have hclt := hbound _ hc
    rw [hheap]
    cases hf : d.first with
    | none =>
      rw [hget_hmodify_ne _ _ _ _ (by omega),
          hget_cons_ne _ _ _ _ (by omega)]
    | some q =>
      have hq : as.head? = some q := by
        rw [← hf, chain_head _ _ _ _ hch]
      rw [hget_hmodify_ne _ _ _ _ (hcb q hq),
          hget_hmodify_ne _ _ _ _ (by omega),
          hget_cons_ne _ _ _ _ (by omega)]
  have hfl : (list_add_first d x).2.first = some d.fresh ∧
      (list_add_first d x).2.last =
        (if d.last = none then some d.fresh else d.last) := by
    unfold list_add_first create_element update_links update_desc
    dsimp only
    rw [if_neg hfirst_ne]
    by_cases hl : d.last = none
    · rw [if_pos (Or.inl hl), if_pos hl]
      exact ⟨rfl, rfl⟩
    · rw [if_neg (by simp [hl]), if_neg hl]
      exact ⟨rfl, rfl⟩
  refine ⟨rfl, ?_, ?_, (list_add_first_fields d x).1,
    (list_add_first_fields d x).2.1, (list_add_first_fields d x).2.2.1⟩
  · refine ⟨?_, ?_, ?_, ?_, ?_, ?_⟩
    · rw [hfl.1]
      exact chain_prepend d.heap (list_add_first d x).2.heap d.fresh x as
        d.first hch hnodup hother hhead_mod hfresh_new
    · rw [hfl.2]
      cases as with
      | nil =>
        have : d.last = none := by simpa using hlast
        simp [this]
      | cons b bs =>
        have hlne : ¬ d.last = none := by
          rw [hlast]
          cases hg : (b :: bs).getLast? with
          | none => simp at hg
          | some la => simp
        rw [if_neg hlne, hlast, List.getLast?_cons_cons]
    · rw [(list_add_first_fields d x).2.2.2, hnb]
      rfl
    · simp only [List.nodup_cons]
      exact ⟨hfresh_nmem, hnodup⟩
    · intro c hc
      rw [(list_add_first_fields d x).2.1]
      rcases List.mem_cons.mp hc with rfl | hc
      · omega
      · have := hbound _ hc
        omega
    · have hkeys : (list_add_first d x).2.heap.map Prod.fst =
          d.fresh :: d.heap.map Prod.fst := by
        rw [hheap]
        cases d.first <;> simp [hmodify_keys]
      rw [hkeys]
      exact hperm.cons d.fresh
  · unfold payloads
    simp only [List.map_cons]
    congr 1
    · unfold dataOf
      rw [hfresh_new]
    · apply List.map_congr_left
      intro c hc
      unfold dataOf
      by_cases hchd : ∀ b, as.head? = some b → c ≠ b
      · rw [hother c hc hchd]
      · push_neg at hchd
        obtain ⟨b, hb, rfl⟩ := hchd
        cases he : hget d.heap c with
        | none =>
          rw [hheap]
          have hfb : d.first = some c := by
            rw [chain_head _ _ _ _ hch, hb]
          rw [hfb]
          have hblt := hbound _ hc
          rw [hget_hmodify_self, hget_hmodify_ne _ _ _ _ (by omega),
              hget_cons_ne _ _ _ _ (by omega), he]
          rfl
        | some e => rw [hhead_mod c e hb he]

theorem list_get_first_empty (d : list_desc) (hwf : wf d []) :
    list_get_first d = some (false, 0, d) := by
  obtain ⟨-, -, hnb, -, -, -⟩ := hwf
  unfold list_get_first
  rw [if_pos (by simpa using hnb)]

theorem list_get_first_spec (d : list_desc) (a : Nat) (as : List Nat)
    (hwf : wf d (a :: as)) :
    ∃ d', list_get_first d = some (true, dataOf d.heap a, d') ∧
    wf d' as ∧
    payloads d'.heap as = payloads d.heap as ∧
    d'.comparator = d.comparator ∧
    d'.fresh = d.fresh ∧
    d'.nb_iterators = d.nb_iterators := by
  obtain ⟨hch, hlast, hnb, hnodup, hbound, hperm⟩ := hwf
  have hfirst : d.first = some a := chain_head _ _ _ _ hch
  rw [isChainB_cons_iff] at hch
  obtain ⟨-, e, hg, hp, hrest⟩ := hch
  have henext : e.next = as.head? := chain_head _ _ _ _ hrest
  simp only [List.nodup_cons] at hnodup
  have halt := hbound a (by simp)
  have hdata : dataOf d.heap a = e.data := by
    unfold dataOf
    rw [hg]
  cases as with
  | nil =>
    have hen : e.next = none := by simpa using henext
    have hEval : list_get_first d = some (true, e.data,
        { d with heap := hdel d.heap a, first := none, last := none,
                 nb_elements := d.nb_elements - 1 }) := by
      unfold list_get_first
      rw [if_neg (by rw [hnb]; simp), hfirst]
      dsimp only
      rw [hg]
      dsimp only
      unfold update_links update_desc
      rw [hp, hen]
      dsimp only
      rw [if_neg (by simp)]
      rw [if_pos (Or.inr rfl)]
    rw [hdata, hEval]
    refine ⟨_, rfl, ?_, by simp [payloads], rfl, rfl, rfl⟩
    refine ⟨by simp [isChainB_nil_iff], by simp, ?_, by simp, by simp, ?_⟩
    · dsimp only
      rw [hnb]
      rfl
    · dsimp only
      rw [hdel_keys]
      simpa using hperm.erase a
  | cons b bs =>
    have hen : e.next = some b := by simpa using henext
    have habne : a ≠ b := fun hab => hnodup.1 (hab ▸ by simp)
    have hblt : b < d.fresh := hbound b (by simp)
    have hlne : ¬ d.last = none := by
      rw [hlast]
      cases hgl : (a :: b :: bs).getLast? with
      | none => simp at hgl
      | some la => simp
    have hEval : list_get_first d = some (true, e.data,
        { d with
            heap := hdel (hmodify d.heap b
              (fun n => { n with prev := none })) a,
            first := some b,
            nb_elements := d.nb_elements - 1 }) := by
      unfold list_get_first
      rw [if_neg (by rw [hnb]; simp), hfirst]
      dsimp only
      rw [hg]
      dsimp only
      unfold update_links update_desc
      rw [hp, hen]
      dsimp only
      rw [if_neg (by simp [Ne.symm habne])]
      rw [if_neg (by simp [hlne])]
    rw [hdata, hEval]
    have hother : ∀ c, c ≠ a → c ≠ b →
        hget (hdel (hmodify d.heap b
          (fun n => { n with prev := none })) a) c = hget d.heap c := by
      intro c hca hcb
      rw [hget_hdel_ne _ _ _ hca, hget_hmodify_ne _ _ _ _ hcb]
    have hbmod : ∀ eb, hget d.heap b = some eb →
        hget (hdel (hmodify d.heap b
          (fun n => { n with prev := none })) a) b =
          some { eb with prev := none } := by
      intro eb heb
      rw [hget_hdel_ne _ _ _ (Ne.symm habne), hget_hmodify_self, heb]
      rfl
    refine ⟨_, rfl, ?_, ?_, rfl, rfl, rfl⟩
    · refine ⟨?_, ?_, ?_, ?_, ?_, ?_⟩
      · dsimp only
        have := chain_tail d.heap
          (hdel (hmodify d.heap b (fun n => { n with prev := none })) a)
          a (b :: bs) ?_ (List.nodup_cons.mpr hnodup)
          ?_ ?_
        · simpa using this
        · rw [isChainB_cons_iff]
          exact ⟨rfl, e, hg, hp, hrest⟩
        · intro c hc hcb
          refine hother c ?_ ?_
          · exact fun hca => hnodup.1 (hca ▸ hc)
          · exact hcb b rfl
        · intro c ec hc hec
          obtain rfl : c = b := by simpa using hc.symm
          exact hbmod ec hec
      · dsimp only
        rw [hlast, List.getLast?_cons_cons]
      · dsimp only
        rw [hnb]
        rfl
      · exact hnodup.2
      · intro c hc
        dsimp only
        exact hbound c (by simp [hc])
      · dsimp only
        rw [hdel_keys, hmodify_keys]
        have := hperm.erase a
        simpa using this
    · dsimp only
      unfold payloads
      apply List.map_congr_left
      intro c hc
      unfold dataOf
      by_cases hcb : c = b
      · subst hcb
        cases heb : hget d.heap c with
        | none =>
          rw [hget_hdel_ne _ _ _ (Ne.symm habne), hget_hmodify_self, heb]
          rfl
        | some eb => rw [hbmod eb heb]
      · rw [hother c (fun hca => hnodup.1 (hca ▸ hc)) hcb]

theorem insPos_le_length (cmp : Nat → Nat → Int) (x : Nat) (l : List Nat) :
    insPos cmp x l ≤ l.length := by
  induction l with
  | nil => simp [insPos]
  | cons y ys ih =>
    unfold insPos
    split
    · simp
    · simpa using ih

theorem sortedIns_eq_take_drop (cmp : Nat → Nat → Int) (x : Nat)
    (l : List Nat) :
    sortedIns cmp x l =
      l.take (insPos cmp x l) ++ x :: l.drop (insPos cmp x l) := by
  induction l with
  | nil => simp [sortedIns, insPos]
  | cons y ys ih =>
    unfold sortedIns insPos
    split
    · simp
    · simp only [List.take_succ_cons, List.drop_succ_cons, List.cons_append]
      rw [ih]

theorem find_ge_spec (d : list_desc) (x : Nat) (as : List Nat) :
    ∀ prv cur fuel, isChainB d.heap prv cur as = true →
    as.length < fuel →
    find_ge d x fuel cur =
      some as[insPos d.comparator x (payloads d.heap as)]? := by
  induction as with
  | nil =>
    intro prv cur fuel hch hfuel
    rw [isChainB_nil_iff] at hch
    subst hch
    match fuel, hfuel with
    | f + 1, _ => simp [find_ge, insPos, payloads]
  | cons a as ih =>
    intro prv cur fuel hch hfuel
    rw [isChainB_cons_iff] at hch
    obtain ⟨hcur, e, hg, hp, hrest⟩ := hch
    subst hcur
    match fuel, hfuel with
    | f + 1, hf =>
      unfold find_ge
      rw [hg]
      dsimp only
      have hda : dataOf d.heap a = e.data := by unfold dataOf; rw [hg]
      unfold payloads
      simp only [List.map_cons]
      unfold insPos
      rw [hda]
      split
      · next hlt => simp
      · next hlt =>
        rw [ih (some a) e.next f hrest (by simp at hf; omega)]
        simp [payloads]


theorem iterator_insert_mid_spec (d : list_desc) (as : List Nat) (x : Nat)
    (j : Nat) (hwf : wf d as) (hj0 : 0 < j) (hj : j < as.length) :
    ∃ d', iterator_insert d (some as[j]) x false = some (true, d') ∧
    wf d' (as.take j ++ d.fresh :: as.drop j) ∧
    payloads d'.heap (as.take j ++ d.fresh :: as.drop j) =
      (payloads d.heap as).take j ++ x :: (payloads d.heap as).drop j ∧
    d'.comparator = d.comparator ∧
    d'.nb_iterators = d.nb_iterators ∧
    d'.l_it_elem = d.l_it_elem := by
  obtain ⟨hch, hlast, hnb, hnodup, hbound, hperm⟩ := hwf
  have hj1 : j - 1 < as.length := by omega
  have h0 : 0 < as.length := by omega
  obtain ⟨ej, hgj, hnj, hpj⟩ := chain_node d.heap as none d.first hch j hj
  have hpj' : ej.prev = some as[j - 1] := by
    rw [hpj, if_neg (by omega), List.getElem?_eq_getElem hj1]
  have hfirst : d.first = some as[0] := by
    rw [chain_head _ _ _ _ hch, List.head?_eq_getElem?,
        List.getElem?_eq_getElem h0]
  have hne_j0 : as[j] ≠ as[0] := fun hc => by
    have := (hnodup.getElem_inj_iff).mp hc
    omega
  have hne_jj1 : as[j - 1] ≠ as[j] := fun hc => by
    have := (hnodup.getElem_inj_iff).mp hc
    omega
  have hjlt := hbound _ (List.getElem_mem hj)
  have hj1lt := hbound _ (List.getElem_mem hj1)
  have hjmem := List.getElem_mem hj
  have hj1mem := List.getElem_mem hj1
  have hfresh_nmem : d.fresh ∉ as := fun hmem => by
    have := hbound _ hmem
    omega
  -- evaluate the operation
  have hEval : iterator_insert d (some as[j]) x false = some (true,
      { d with
          heap := hmodify (hmodify (hmodify
              ((d.fresh, ⟨x, ej.prev, some as[j]⟩) :: d.heap)
              (as[j - 1]) (fun n => { n with next := some d.fresh }))
            d.fresh (fun n => { n with prev := ej.prev, next := some as[j] }))
            (as[j]) (fun n => { n with prev := some d.fresh }),
          fresh := d.fresh + 1,
          nb_elements := d.nb_elements + 1 }) := by
    unfold iterator_insert
    rw [if_neg (by simp)]
    rw [if_neg (by rw [hfirst]; simp [hne_j0])]
    dsimp only
    rw [hgj]
    dsimp only
    unfold create_element update_links
    rw [if_neg (by simp)]
    dsimp only
    rw [hpj']
  rw [hEval]
  -- node lookups in the new heap
  have hother : ∀ c, c ≠ as[j - 1] → c ≠ as[j] → c ≠ d.fresh →
      hget (hmodify (hmodify (hmodify
          ((d.fresh, ⟨x, ej.prev, some as[j]⟩) :: d.heap)
          (as[j - 1]) (fun n => { n with next := some d.fresh }))
        d.fresh (fun n => { n with prev := ej.prev, next := some as[j] }))
        (as[j]) (fun n => { n with prev := some d.fresh })) c =
      hget d.heap c := by
    intro c h1 h2 h3
    rw [hget_hmodify_ne _ _ _ _ h2, hget_hmodify_ne _ _ _ _ h3,
        hget_hmodify_ne _ _ _ _ h1, hget_cons_ne _ _ _ _ h3]
  have hmod_j1 : ∀ e, hget d.heap (as[j - 1]) = some e →
      hget (hmodify (hmodify (hmodify
          ((d.fresh, ⟨x, ej.prev, some as[j]⟩) :: d.heap)
          (as[j - 1]) (fun n => { n with next := some d.fresh }))
        d.fresh (fun n => { n with prev := ej.prev, next := some as[j] }))
        (as[j]) (fun n => { n with prev := some d.fresh })) (as[j - 1]) =
      some { e with next := some d.fresh } := by
    intro e he
    rw [hget_hmodify_ne _ _ _ _ hne_jj1, hget_hmodify_ne _ _ _ _ (by omega),
        hget_hmodify_self, hget_cons_ne _ _ _ _ (by omega), he]
    rfl
  have hmod_j : ∀ e, hget d.heap (as[j]) = some e →
      hget (hmodify (hmodify (hmodify
          ((d.fresh, ⟨x, ej.prev, some as[j]⟩) :: d.heap)
          (as[j - 1]) (fun n => { n with next := some d.fresh }))
        d.fresh (fun n => { n with prev := ej.prev, next := some as[j] }))
        (as[j]) (fun n => { n with prev := some d.fresh })) (as[j]) =
      some { e with prev := some d.fresh } := by
    intro e he
    rw [hget_hmodify_self, hget_hmodify_ne _ _ _ _ (by omega),
        hget_hmodify_ne _ _ _ _ (Ne.symm hne_jj1),
        hget_cons_ne _ _ _ _ (by omega), he]
    rfl
  have hmod_f : hget (hmodify (hmodify (hmodify
          ((d.fresh, ⟨x, ej.prev, some as[j]⟩) :: d.heap)
          (as[j - 1]) (fun n => { n with next := some d.fresh }))
        d.fresh (fun n => { n with prev := ej.prev, next := some as[j] }))
        (as[j]) (fun n => { n with prev := some d.fresh })) d.fresh =
      some ⟨x, some as[j - 1], some as[j]⟩ := by
    rw [hget_hmodify_ne _ _ _ _ (by omega), hget_hmodify_self,
        hget_hmodify_ne _ _ _ _ (by omega), hget_cons_self]
    simp [hpj']
  have hdata_pres : ∀ c ∈ as,
      dataOf (hmodify (hmodify (hmodify
          ((d.fresh, ⟨x, ej.prev, some as[j]⟩) :: d.heap)
          (as[j - 1]) (fun n => { n with next := some d.fresh }))
        d.fresh (fun n => { n with prev := ej.prev, next := some as[j] }))
        (as[j]) (fun n => { n with prev := some d.fresh })) c =
      dataOf d.heap c := by
    intro c hc
    have hcf : c ≠ d.fresh := fun hcc => hfresh_nmem (hcc ▸ hc)
    by_cases h1 : c = as[j - 1]
    · subst h1
      unfold dataOf
      cases he : hget d.heap (as[j - 1]) with
      | none =>
        rw [hget_hmodify_ne _ _ _ _ hne_jj1,
            hget_hmodify_ne _ _ _ _ (by omega), hget_hmodify_self,
            hget_cons_ne _ _ _ _ (by omega), he]
        rfl
      | some e => rw [hmod_j1 e he]
    · by_cases h2 : c = as[j]
      · subst h2
        unfold dataOf
        cases he : hget d.heap (as[j]) with
        | none =>
          rw [hget_hmodify_self, hget_hmodify_ne _ _ _ _ (by omega),
              hget_hmodify_ne _ _ _ _ (Ne.symm hne_jj1),
              hget_cons_ne _ _ _ _ (by omega), he]
          rfl
        | some e => rw [hmod_j e he]
      · unfold dataOf
        rw [hother c h1 h2 hcf]
  have hdrop_cons : as.drop j = as[j] :: as.drop (j + 1) :=
    List.drop_eq_getElem_cons hj
  refine ⟨_, rfl, ?_, ?_, rfl, rfl, rfl⟩
  · refine ⟨?_, ?_, ?_, ?_, ?_, ?_⟩
    · dsimp only
      exact chain_mid d.heap _ d.fresh x as j none d.first hch hj0 hj
        hnodup
        (fun c hc h1 h2 => hother c h1 h2
          (fun hcc => hfresh_nmem (hcc ▸ hc)))
        hmod_j1 hmod_j hmod_f
    · have hdne : as.drop j ≠ [] := by
        rw [Ne, List.drop_eq_nil_iff_le]
        omega
      dsimp only
      rw [hlast]
      rw [List.getLast?_append_of_ne_nil _ (by simp)]
      rw [hdrop_cons, List.getLast?_cons_cons, ← hdrop_cons]
      conv_lhs => rw [← List.take_append_drop j as]
      rw [List.getLast?_append_of_ne_nil _ hdne]
    · dsimp only
      rw [hnb]
      simp only [List.length_append, List.length_take, List.length_cons,
        List.length_drop]
      omega
    · have hpm : (as.take j ++ d.fresh :: as.drop j).Perm (d.fresh :: as) := by
        refine List.perm_middle.trans ?_
        rw [List.take_append_drop]
      rw [hpm.nodup_iff]
      simp only [List.nodup_cons]
      exact ⟨hfresh_nmem, hnodup⟩
    · intro c hc
      dsimp only
      rcases List.mem_append.mp hc with hc | hc
      · have := hbound _ (List.mem_of_mem_take hc)
        omega
      · rcases List.mem_cons.mp hc with rfl | hc
        · omega
        · have := hbound _ (List.mem_of_mem_drop hc)
          omega
    · dsimp only
      rw [hmodify_keys, hmodify_keys, hmodify_keys]
      have hk : ((d.fresh, (⟨x, ej.prev, some as[j]⟩ : list_elem)) ::
          d.heap).map Prod.fst = d.fresh :: d.heap.map Prod.fst := rfl
      rw [hk]
      refine ((hperm.cons d.fresh).trans ?_).symm.symm
      refine (List.perm_middle.trans ?_).symm
      rw [List.take_append_drop]
  · dsimp only
    unfold payloads
    rw [List.map_append, List.map_cons]
    rw [← List.map_take, ← List.map_drop]
    congr 1
    · apply List.map_congr_left
      intro c hc
      exact hdata_pres c (List.mem_of_mem_take hc)
    · congr 1
      · unfold dataOf
        rw [hmod_f]
      · apply List.map_congr_left
        intro c hc
        exact hdata_pres c (List.mem_of_mem_drop hc)

theorem list_add_find_spec (d : list_desc) (as : List Nat) (x : Nat)
    (hwf : wf d as) :
    ∃ d' as', list_add_find d x = some (true, d') ∧
    wf d' as' ∧
    payloads d'.heap as' = sortedIns d.comparator x (payloads d.heap as) ∧
    d'.comparator = d.comparator ∧
    d'.nb_iterators = d.nb_iterators := by
  obtain ⟨hch, hlast, hnb, hnodup, hbound, hperm⟩ := hwf
  have hplen : (payloads d.heap as).length = as.length := by
    simp [payloads]
  have hjle : insPos d.comparator x (payloads d.heap as) ≤ as.length := by
    rw [← hplen]
    exact insPos_le_length _ _ _
  have hfind := find_ge_spec d x as none d.first (d.nb_elements + 1) hch
    (by omega)
  unfold list_add_find
  rw [hfind]
  rw [sortedIns_eq_take_drop]
  by_cases hjlen : insPos d.comparator x (payloads d.heap as) < as.length
  · rw [List.getElem?_eq_getElem hjlen]
    dsimp only
    by_cases hj0 : insPos d.comparator x (payloads d.heap as) = 0
    · -- insert at the head
      have hfirst : d.first = some as[0] := by
        rw [chain_head _ _ _ _ hch, List.head?_eq_getElem?,
            List.getElem?_eq_getElem (by omega)]
      simp only [hj0]
      have hwf1 : wf { d with l_it_elem := some as[0] } as :=
        ⟨hch, hlast, hnb, hnodup, hbound, hperm⟩
      unfold iterator_insert
      rw [if_neg (by simp)]
      rw [if_pos ⟨rfl, by dsimp only; rw [hfirst]⟩]
      obtain ⟨hs1, hwf', hpay, hcmp, hfr, hni⟩ :=
        list_add_first_spec _ as x hwf1
      have hwf'' : wf (list_add_first { d with l_it_elem := some as[0] }
          x).2 (d.fresh :: as) := hwf'
      have hpay' : payloads (list_add_first { d with
          l_it_elem := some as[0] } x).2.heap (d.fresh :: as) =
          x :: payloads d.heap as := hpay
      refine ⟨_, d.fresh :: as, ?_, hwf'', ?_, hcmp, hni⟩
      · exact congrArg some (Prod.ext hs1 rfl)
      · rw [hpay']
        simp
    · have hwf1 : wf { d with
          l_it_elem := some as[insPos d.comparator x (payloads d.heap as)] }
          as := ⟨hch, hlast, hnb, hnodup, hbound, hperm⟩
      obtain ⟨d', hins, hwf', hpay, hcmp, hni, -⟩ :=
        iterator_insert_mid_spec _ as x
          (insPos d.comparator x (payloads d.heap as)) hwf1
          (by omega) hjlen
      have hwf'' : wf d' (as.take (insPos d.comparator x
          (payloads d.heap as)) ++ d.fresh ::
          as.drop (insPos d.comparator x (payloads d.heap as))) := hwf'
      have hpay' : payloads d'.heap (as.take (insPos d.comparator x
          (payloads d.heap as)) ++ d.fresh ::
          as.drop (insPos d.comparator x (payloads d.heap as))) =
          (payloads d.heap as).take (insPos d.comparator x
            (payloads d.heap as)) ++ x ::
          (payloads d.heap as).drop (insPos d.comparator x
            (payloads d.heap as)) := hpay
      exact ⟨d', _, hins, hwf'', hpay', hcmp, hni⟩
  · have hjeq : insPos d.comparator x (payloads d.heap as) = as.length := by
      omega
    rw [List.getElem?_eq_none (by omega)]
    dsimp only
    have hwf1 : wf { d with l_it_elem := d.last } as :=
      ⟨hch, hlast, hnb, hnodup, hbound, hperm⟩
    unfold iterator_insert
    rw [if_pos ⟨rfl, rfl⟩]
    obtain ⟨hs1, hwf', hpay, hcmp, hfr, hni⟩ :=
      list_add_last_spec _ as x hwf1
    have hwf'' : wf (list_add_last { d with l_it_elem := d.last } x).2
        (as ++ [d.fresh]) := hwf'
    have hpay' : payloads (list_add_last { d with l_it_elem := d.last }
        x).2.heap (as ++ [d.fresh]) = payloads d.heap as ++ [x] := hpay
    refine ⟨_, as ++ [d.fresh], ?_, hwf'', ?_, hcmp, hni⟩
    · exact congrArg some (Prod.ext hs1 rfl)
    · rw [hpay', hjeq, ← hplen, List.take_length, List.drop_length]

theorem cmp_le_of_not_lt {cmp : Nat → Nat → Int} (hs : ∀ a b, cmp a b < 0 ↔ 0 < cmp b a)
    {x y : Nat} (h : ¬ cmp x y < 0) : cmp y x ≤ 0 := by
  by_contra hc
  push_neg at hc
  exact h ((hs x y).mpr hc)

theorem cmp_lt_le_trans {cmp : Nat → Nat → Int} (hs : ∀ a b, cmp a b < 0 ↔ 0 < cmp b a)
    (ht : ∀ a b c, cmp a b ≤ 0 → cmp b c ≤ 0 → cmp a c ≤ 0)
    {x y z : Nat} (h1 : cmp x y < 0) (h2 : cmp y z ≤ 0) : cmp x z < 0 := by
  by_contra hc
  have h3 : cmp z x ≤ 0 := cmp_le_of_not_lt hs hc
  have h4 : cmp y x ≤ 0 := ht y z x h2 h3
  have := (hs x y).mp h1
  omega

theorem cmp_eq_trans {cmp : Nat → Nat → Int} (hs : ∀ a b, cmp a b < 0 ↔ 0 < cmp b a)
    (ht : ∀ a b c, cmp a b ≤ 0 → cmp b c ≤ 0 → cmp a c ≤ 0)
    {x z w : Nat} (h1 : cmp x z = 0) (h2 : cmp w z = 0) : cmp x w = 0 := by
  have hzx : cmp z x = 0 := by
    have ha := hs x z
    have hb := hs z x
    omega
  have hzw : cmp z w = 0 := by
    have ha := hs w z
    have hb := hs z w
    omega
  have hle : cmp x w ≤ 0 := ht x z w (by omega) (by omega)
  have hle' : cmp w x ≤ 0 := ht w z x (by omega) hzx.le
  have ha := hs x w
  omega

theorem sortedIns_perm {cmp : Nat → Nat → Int} (x : Nat) (l : List Nat) :
    (sortedIns cmp x l).Perm (x :: l) := by
  induction l with
  | nil => simp [sortedIns]
  | cons y ys ih =>
    unfold sortedIns
    split
    · exact List.Perm.refl _
    · exact (ih.cons y).trans (List.Perm.swap x y ys)

theorem sortedIns_sorted {cmp : Nat → Nat → Int} (hs : ∀ a b, cmp a b < 0 ↔ 0 < cmp b a)
    (ht : ∀ a b c, cmp a b ≤ 0 → cmp b c ≤ 0 → cmp a c ≤ 0)
    (x : Nat) (l : List Nat)
    (hl : l.Pairwise (fun a b => cmp a b ≤ 0)) :
    (sortedIns cmp x l).Pairwise (fun a b => cmp a b ≤ 0) := by
  induction l with
  | nil => simp [sortedIns]
  | cons y ys ih =>
    rw [List.pairwise_cons] at hl
    unfold sortedIns
    split
    · next hlt =>
      rw [List.pairwise_cons]
      refine ⟨?_, List.pairwise_cons.mpr hl⟩
      intro z hz
      rcases List.mem_cons.mp hz with rfl | hz
      · omega
      · have := hl.1 z hz
        have := cmp_lt_le_trans hs ht hlt this
        omega
    · next hlt =>
      rw [List.pairwise_cons]
      refine ⟨?_, ih hl.2⟩
      intro z hz
      have hz' := (sortedIns_perm x ys).mem_iff.mp hz
      rcases List.mem_cons.mp hz' with rfl | hz'
      · exact cmp_le_of_not_lt hs hlt
      · exact hl.1 z hz'

theorem sorted_filter_class_nil {cmp : Nat → Nat → Int}
    (hs : ∀ a b, cmp a b < 0 ↔ 0 < cmp b a)
    (ht : ∀ a b c, cmp a b ≤ 0 → cmp b c ≤ 0 → cmp a c ≤ 0)
    (x z y : Nat) (ys : List Nat)
    (hl : (y :: ys).Pairwise (fun a b => cmp a b ≤ 0))
    (hlt : cmp x y < 0) (hxz : cmp x z = 0) :
    (y :: ys).filter (fun w => decide (cmp w z = 0)) = [] := by
  rw [List.filter_eq_nil_iff]
  intro w hw
  simp only [decide_eq_true_eq]
  intro hwz
  have hxw : cmp x w = 0 := cmp_eq_trans hs ht hxz hwz
  rcases List.mem_cons.mp hw with rfl | hw
  · omega
  · rw [List.pairwise_cons] at hl
    have := hl.1 w hw
    have := cmp_lt_le_trans hs ht hlt this
    omega

theorem sortedIns_filter_class {cmp : Nat → Nat → Int}
    (hs : ∀ a b, cmp a b < 0 ↔ 0 < cmp b a)
    (ht : ∀ a b c, cmp a b ≤ 0 → cmp b c ≤ 0 → cmp a c ≤ 0)
    (x z : Nat) (l : List Nat)
    (hl : l.Pairwise (fun a b => cmp a b ≤ 0)) :
    (sortedIns cmp x l).filter (fun w => decide (cmp w z = 0)) =
      if cmp x z = 0 then
        l.filter (fun w => decide (cmp w z = 0)) ++ [x]
      else l.filter (fun w => decide (cmp w z = 0)) := by
  induction l with
  | nil =>
    unfold sortedIns
    by_cases hxz : cmp x z = 0
    · rw [if_pos hxz]
      simp [List.filter, hxz]
    · rw [if_neg hxz]
      simp [List.filter, hxz]
  | cons y ys ih =>
    rw [List.pairwise_cons] at hl
    unfold sortedIns
    split
    · next hlt =>
      by_cases hxz : cmp x z = 0
      · rw [if_pos hxz]
        have hnil := sorted_filter_class_nil hs ht x z y ys
          (List.pairwise_cons.mpr hl) hlt hxz
        rw [List.filter_cons_of_pos (by simpa using hxz), hnil]
        rfl
      · rw [if_neg hxz]
        rw [List.filter_cons_of_neg (by simpa using hxz)]
    · next hlt =>
      by_cases hyz : cmp y z = 0
      · rw [List.filter_cons_of_pos (by simpa using hyz),
            List.filter_cons_of_pos (by simpa using hyz), ih hl.2]
        split
        · simp
        · rfl
      · rw [List.filter_cons_of_neg (by simpa using hyz),
            List.filter_cons_of_neg (by simpa using hyz), ih hl.2]


theorem foldl_sortedIns_perm {cmp : Nat → Nat → Int} (keys : List Nat) :
    ∀ acc : List Nat,
    (keys.foldl (fun l k => sortedIns cmp k l) acc).Perm (keys ++ acc) := by
  induction keys with
  | nil => intro acc; simp
  | cons k ks ih =>
    intro acc
    simp only [List.foldl_cons, List.cons_append]
    refine (ih (sortedIns cmp k acc)).trans ?_
    refine (List.Perm.append_left ks (sortedIns_perm k acc)).trans ?_
    exact List.perm_middle

theorem foldl_sortedIns_sorted {cmp : Nat → Nat → Int}
    (hs : ∀ a b, cmp a b < 0 ↔ 0 < cmp b a)
    (ht : ∀ a b c, cmp a b ≤ 0 → cmp b c ≤ 0 → cmp a c ≤ 0)
    (keys : List Nat) :
    ∀ acc : List Nat, acc.Pairwise (fun a b => cmp a b ≤ 0) →
    (keys.foldl (fun l k => sortedIns cmp k l) acc).Pairwise
      (fun a b => cmp a b ≤ 0) := by
  induction keys with
  | nil => intro acc hacc; simpa using hacc
  | cons k ks ih =>
    intro acc hacc
    simp only [List.foldl_cons]
    exact ih _ (sortedIns_sorted hs ht k acc hacc)

theorem foldl_sortedIns_filter {cmp : Nat → Nat → Int}
    (hs : ∀ a b, cmp a b < 0 ↔ 0 < cmp b a)
    (ht : ∀ a b c, cmp a b ≤ 0 → cmp b c ≤ 0 → cmp a c ≤ 0)
    (z : Nat) (keys : List Nat) :
    ∀ acc : List Nat, acc.Pairwise (fun a b => cmp a b ≤ 0) →
    (keys.foldl (fun l k => sortedIns cmp k l) acc).filter
        (fun w => decide (cmp w z = 0)) =
      acc.filter (fun w => decide (cmp w z = 0)) ++
        keys.filter (fun w => decide (cmp w z = 0)) := by
  induction keys with
  | nil => intro acc hacc; simp
  | cons k ks ih =>
    intro acc hacc
    simp only [List.foldl_cons]
    rw [ih _ (sortedIns_sorted hs ht k acc hacc)]
    rw [sortedIns_filter_class hs ht k z acc hacc]
    by_cases hkz : cmp k z = 0
    · rw [if_pos hkz, List.filter_cons_of_pos (by simpa using hkz)]
      simp
    · rw [if_neg hkz, List.filter_cons_of_neg (by simpa using hkz)]


theorem pushAll_spec (cmp : Nat → Nat → Int) (keys : List Nat) :
    ∀ d as, wf d as → d.comparator = cmp →
    ∃ d1 as1,
      pushAll (set_adapter .LIST_PRIORITY_LIST) d keys = some d1 ∧
      wf d1 as1 ∧
      payloads d1.heap as1 =
        keys.foldl (fun l k => sortedIns cmp k l) (payloads d.heap as) ∧
      d1.comparator = cmp ∧
      d1.nb_iterators = d.nb_iterators := by
  induction keys with
  | nil =>
    intro d as hwf hcmp
    exact ⟨d, as, rfl, hwf, rfl, hcmp, rfl⟩
  | cons k ks ih =>
    intro d as hwf hcmp
    obtain ⟨d', as', hpush, hwf', hpay, hcmp', hni'⟩ :=
      list_add_find_spec d as k hwf
    obtain ⟨d1, as1, hrest, hwf1, hpay1, hcmp1, hni1⟩ :=
      ih d' as' hwf' (hcmp'.trans hcmp)
    refine ⟨d1, as1, ?_, hwf1, ?_, hcmp1, hni1.trans hni'⟩
    · unfold pushAll
      show (match list_add_find d k with
        | some (true, d') => pushAll (set_adapter .LIST_PRIORITY_LIST) d' ks
        | _ => none) = some d1
      rw [hpush]
      exact hrest
    · rw [hpay1, List.foldl_cons, hpay, hcmp]

theorem popAll_spec : ∀ (n : Nat) (d : list_desc) (as : List Nat),
    wf d as → n = as.length →
    ∃ d2, popAll (set_adapter .LIST_PRIORITY_LIST) d n =
      some (payloads d.heap as, d2) ∧ d2.nb_elements = 0 := by
  intro n
  induction n with
  | zero =>
    intro d as hwf hn
    have : as = [] := List.eq_nil_of_length_eq_zero hn.symm
    subst this
    exact ⟨d, rfl, by simpa using hwf.2.2.1⟩
  | succ n ih =>
    intro d as hwf hn
    cases as with
    | nil => simp at hn
    | cons a as' =>
      obtain ⟨d', hget, hwf', hpay, -, -, -⟩ :=
        list_get_first_spec d a as' hwf
      obtain ⟨d2, hrest, hnb2⟩ := ih d' as' hwf' (by simpa using hn)
      refine ⟨d2, ?_, hnb2⟩
      unfold popAll
      show (match list_get_first d with
        | some (true, x, d') =>
          (popAll (set_adapter .LIST_PRIORITY_LIST) d' n).map
            (fun r => (x :: r.1, r.2))
        | _ => none) = some (payloads d.heap (a :: as'), d2)
      rw [hget]
      dsimp only
      rw [hrest, hpay]
      rfl

/-- C5: pushing any finite sequence of keys through the PriorityOrdered
adapter (push = `list_add_find`) and then popping until empty
(pop = `list_get_first`) yields a permutation of the keys that is
non-decreasing under the list's comparator, and, for every key class, the
popped subsequence of that class equals its subsequence in insertion
order (stable FIFO among equal keys).  The comparator is any function
whose strict order is coherent (`cmp a b < 0 ↔ 0 < cmp b a`) and whose
non-strict order is transitive. -/
theorem c5_priority_stable_sort (cmp : Nat → Nat → Int) (keys : List Nat)
    (hs : ∀ a b, cmp a b < 0 ↔ 0 < cmp b a)
    (ht : ∀ a b c, cmp a b ≤ 0 → cmp b c ≤ 0 → cmp a c ≤ 0) :
    ∃ d1 out d2,
      pushAll (list_init (some cmp) .LIST_PRIORITY_LIST).2
        (list_init (some cmp) .LIST_PRIORITY_LIST).1 keys = some d1 ∧
      popAll (list_init (some cmp) .LIST_PRIORITY_LIST).2 d1
        d1.nb_elements = some (out, d2) ∧
      d2.nb_elements = 0 ∧
      out.Perm keys ∧
      out.Pairwise (fun a b => cmp a b ≤ 0) ∧
      (∀ z, out.filter (fun y => decide (cmp y z = 0)) =
        keys.filter (fun y => decide (cmp y z = 0))) := by
  have hwf0 : wf (list_init (some cmp) .LIST_PRIORITY_LIST).1 [] := by
    refine ⟨rfl, rfl, rfl, List.nodup_nil, ?_, List.Perm.refl _⟩
    intro a ha
    simp at ha
  obtain ⟨d1, as1, hpush, hwf1, hpay1, hcmp1, -⟩ :=
    pushAll_spec cmp keys _ [] hwf0 rfl
  have hn1 : d1.nb_elements = as1.length := hwf1.2.2.1
  obtain ⟨d2, hpop, hnb2⟩ := popAll_spec d1.nb_elements d1 as1 hwf1 hn1
  have hout : payloads d1.heap as1 =
      keys.foldl (fun l k => sortedIns cmp k l) [] := hpay1
  refine ⟨d1, payloads d1.heap as1, d2, hpush, hpop, hnb2, ?_, ?_, ?_⟩
  · rw [hout]
    have := @foldl_sortedIns_perm cmp keys []
    simpa using this
  · rw [hout]
    exact foldl_sortedIns_sorted hs ht keys [] List.Pairwise.nil
  · intro z
    rw [hout]
    have := foldl_sortedIns_filter hs ht z keys [] List.Pairwise.nil
    simpa using this

/-- Witness for C5 with the subtraction comparator and keys `[5, 1, 3]`
(Scenario C). -/
theorem c5_witness :
    ∃ d1 out d2,
      pushAll (list_init (some (fun a b => (a : Int) - b))
          .LIST_PRIORITY_LIST).2
        (list_init (some (fun a b => (a : Int) - b))
          .LIST_PRIORITY_LIST).1 [5, 1, 3] = some d1 ∧
      popAll (list_init (some (fun a b => (a : Int) - b))
          .LIST_PRIORITY_LIST).2 d1 d1.nb_elements = some (out, d2) ∧
      d2.nb_elements = 0 ∧
      out.Perm [5, 1, 3] ∧
      out.Pairwise (fun (a b : Nat) => (a : Int) - (b : Int) ≤ 0) ∧
      (∀ z : Nat, out.filter (fun (y : Nat) => decide ((y : Int) - (z : Int) = 0)) =
        [5, 1, 3].filter (fun (y : Nat) => decide ((y : Int) - (z : Int) = 0))) :=
  c5_priority_stable_sort (fun a b => (a : Int) - b) [5, 1, 3]
    (fun a b => by dsimp only; omega)
    (fun a b c h1 h2 => by dsimp only at h1 h2 ⊢; omega)
